import Mathlib

/-!
# Verification of the m3u-editor core (`src/m3u_editor.py`)

A shallow embedding of the program's core data model and operations:

* `M3UEntry` and the playlist codec (`parse_lines` / `to_m3u_lines`),
* the editor's undo/redo history (`save_undo_state` / `undo` / `redo`),
* duplicate detection (`find_duplicates`),
* the stream validator (`check_url` and the worker loop `runResults`).

Python strings are modelled as `List Char` (`Str`); Python lists as Lean
lists (Python's `copy.deepcopy` snapshots become plain values).  Mutable
objects are passed as explicit state.
-/

/-- Python strings, modelled as lists of characters. -/
abbrev Str := List Char

/-- The characters Python's `str.strip()` removes: the code points with
`str.isspace()` true — ASCII whitespace `\t\n\v\f\r` and space, the
separators U+001C–U+001F, NEL U+0085, NBSP U+00A0, and the Unicode space
characters U+1680, U+2000–U+200A, U+2028, U+2029, U+202F, U+205F, U+3000. -/
def isPySpace (c : Char) : Bool :=
  (0x9 ≤ c.toNat && c.toNat ≤ 0xd) || (0x1c ≤ c.toNat && c.toNat ≤ 0x1f)
  || c.toNat == 0x20 || c.toNat == 0x85 || c.toNat == 0xa0 || c.toNat == 0x1680
  || (0x2000 ≤ c.toNat && c.toNat ≤ 0x200a) || c.toNat == 0x2028
  || c.toNat == 0x2029 || c.toNat == 0x202f || c.toNat == 0x205f
  || c.toNat == 0x3000

/-- `s.lstrip()` -/
def lstrip (s : Str) : Str := s.dropWhile isPySpace

/-- `s.rstrip()` -/
def rstrip (s : Str) : Str := (s.reverse.dropWhile isPySpace).reverse

/-- Python `s.strip()`. -/
def pyStrip (s : Str) : Str := rstrip (lstrip s)

/-- Python `s.startswith(p)`. -/
def strStartsWith (s p : Str) : Bool := p.isPrefixOf s

/-- Python `s.endswith(p)`. -/
def strEndsWith (s p : Str) : Bool := p.reverse.isPrefixOf s.reverse

/-- `M3UEntry` (src/m3u_editor.py:29-38): one channel/stream of the playlist,
with the dataclass's default field values. -/
structure M3UEntry where
  name : Str
  url : Str
  group : Str := []
  logo : Str := []
  duration : Str := ['-', '1']
  user_agent : Str := []
  raw_extinf : Str := []
deriving DecidableEq, Repr

instance : Inhabited M3UEntry := ⟨{ name := [], url := [] }⟩

/-- A playlist is the ordered entry list `self.entries`. -/
abbrev Playlist := List M3UEntry

/-! ## Edit history (src/m3u_editor.py:525-555)

The editor window's history state: the current entries, the two snapshot
stacks and the status-bar text.  Stacks grow at the end (`append`) and pop
from the end (`pop()`), exactly as the Python lists do. -/

structure EditorState where
  entries : Playlist
  undo_stack : List Playlist
  redo_stack : List Playlist
  status : String
deriving Repr

/-- The stack update of `save_undo_state` (src/m3u_editor.py:527-529):
`if len(undo_stack) > 50: undo_stack.pop(0)` then `undo_stack.append(x)`. -/
def pushSnapshot (us : List Playlist) (x : Playlist) : List Playlist :=
  (if us.length > 50 then us.drop 1 else us) ++ [x]

/-- `save_undo_state` (src/m3u_editor.py:525-531): push a snapshot of the
current entries (a deep copy — a plain value here), clear the redo stack. -/
def save_undo_state (s : EditorState) : EditorState :=
  { s with
    undo_stack := pushSnapshot s.undo_stack s.entries
    redo_stack := []
    status := "State saved." }

/-- `undo` (src/m3u_editor.py:533-544): no-op with a status message when
the undo stack is empty; otherwise push the current entries onto the redo
stack and pop the undo stack into the current entries. -/
def undo (s : EditorState) : EditorState :=
  match s.undo_stack.getLast? with
  | none => { s with status := "Nothing to undo." }
  | some prev =>
      { entries := prev
        undo_stack := s.undo_stack.dropLast
        redo_stack := s.redo_stack ++ [s.entries]
        status := "Undone last action." }

/-- `redo` (src/m3u_editor.py:546-555): the mirror of `undo`.  Note the
push onto the undo stack here is a plain `append`, with no depth check. -/
def redo (s : EditorState) : EditorState :=
  match s.redo_stack.getLast? with
  | none => { s with status := "Nothing to redo." }
  | some nxt =>
      { entries := nxt
        undo_stack := s.undo_stack ++ [s.entries]
        redo_stack := s.redo_stack.dropLast
        status := "Redone last action." }

/-- A mutating edit as the window performs one: `save_undo_state()` first,
then the mutation of `self.entries` (the pattern of `add_entry`,
`delete_entry`, `bulk_edit_group`, `remove_invalid_streams`). -/
def applyEdit (f : Playlist → Playlist) (s : EditorState) : EditorState :=
  let s' := save_undo_state s
  { s' with entries := f s'.entries }

/-- The window's initial history state (src/m3u_editor.py:311-315,514). -/
def initState (e0 : Playlist) : EditorState :=
  { entries := e0, undo_stack := [], redo_stack := [], status := "Ready" }

/-- A sequence of snapshot-then-mutate operations. -/
def foldEdits (fs : List (Playlist → Playlist)) (s : EditorState) : EditorState :=
  fs.foldl (fun s f => applyEdit f s) s

/-! ## Move up / move down (src/m3u_editor.py:729-757) -/

/-- Python's simultaneous swap `l[i], l[j] = l[j], l[i]`. -/
def swapAt (l : Playlist) (i j : Nat) : Playlist :=
  (l.set i (l.getD j default)).set j (l.getD i default)

/-- `move_up` (src/m3u_editor.py:729-742): snapshot, then — when a row is
selected and `row > 0` — swap the selected entry with the previous one.
(`sync_entries_from_table` is the identity here: the model keeps the table
and the entry list in the same order.) -/
def move_up (sel : Option Nat) (s : EditorState) : EditorState :=
  let s1 := save_undo_state s
  match sel with
  | none => s1
  | some row =>
      if 0 < row then { s1 with entries := swapAt s1.entries row (row - 1) }
      else s1

/-- `move_down` (src/m3u_editor.py:744-757): snapshot, then — when a row is
selected and `row < len(entries) - 1` — swap with the next entry.  For an
empty playlist Python's `len - 1` is `-1` and the guard fails, as Nat
truncated subtraction makes it fail here. -/
def move_down (sel : Option Nat) (s : EditorState) : EditorState :=
  let s1 := save_undo_state s
  match sel with
  | none => s1
  | some row =>
      if row < s1.entries.length - 1 then
        { s1 with entries := swapAt s1.entries row (row + 1) }
      else s1

/-! ## Duplicate detection (src/m3u_editor.py:888-903) -/

/-- The scan of `find_duplicates`: walk the entries in order, keeping the
set of URLs seen so far (a list with the same membership). -/
def findDupAux : List M3UEntry → Nat → List Str → List Nat
  | [], _, _ => []
  | e :: rest, i, seen =>
      if e.url ∈ seen then i :: findDupAux rest (i + 1) seen
      else findDupAux rest (i + 1) (e.url :: seen)

/-- `find_duplicates` (src/m3u_editor.py:888-903): the indices of entries
whose `url` already appeared at an earlier index. -/
def find_duplicates (entries : List M3UEntry) : List Nat :=
  findDupAux entries 0 []

/-! ## Stream validator (src/m3u_editor.py:149-193)

The network is an oracle: a probe's outcome is either a returned response
with a status code (`urlopen` succeeded), an `HTTPError` with a code, or
any other exception with its message text. -/

inductive ProbeOutcome where
  | resp (status : Nat)
  | httpError (code : Nat)
  | exn (msg : String)
deriving DecidableEq, Repr

/-- `StreamValidator.check_url` (src/m3u_editor.py:168-190), as a function
of the HEAD probe's outcome and — consulted only on an HTTP 405 — the GET
retry's outcome.  Total: every branch returns `(is_valid, message)`. -/
def check_url (head get : ProbeOutcome) : Bool × String :=
  match head with
  | .resp s =>
      if 200 ≤ s ∧ s < 400 then (true, "OK (" ++ toString s ++ ")")
      else (false, "Status: " ++ toString s)
  | .httpError c =>
      if c = 405 then
        match get with
        | .resp s =>
            if 200 ≤ s ∧ s < 400 then (true, "OK (" ++ toString s ++ ")")
            else (false, "HTTP " ++ toString c)
        | _ => (false, "HTTP " ++ toString c)
      else (false, "HTTP " ++ toString c)
  | .exn m => (false, "Error: " ++ m)

/-- A validation task `(row_index, url, user_agent)` (src/m3u_editor.py:156). -/
structure VTask where
  row : Nat
  url : String
  user_agent : String
deriving DecidableEq, Repr

/-- The loop body of `StreamValidator.run` (src/m3u_editor.py:159-166):
`obs i` is the value of `self.is_running` the loop reads at iteration `i`
(the flag is written by `stop()` from the other thread), `probe t` the
outcome of `check_url` for task `t`.  Returns the `result` emissions in
order; the loop breaks at the first false observation. -/
def runResults (obs : Nat → Bool) (probe : VTask → Bool × String) :
    List VTask → Nat → List (Nat × Bool × String)
  | [], _ => []
  | t :: ts, i =>
      if obs i then (t.row, (probe t).1, (probe t).2) :: runResults obs probe ts (i + 1)
      else []

/-- A full run of the worker thread: the emitted per-task results, and the
number of `finished` signals — `run` returns exactly once (normally or via
`break`), so the thread's `finished` signal fires exactly once. -/
def runEmissions (obs : Nat → Bool) (probe : VTask → Bool × String)
    (tasks : List VTask) : List (Nat × Bool × String) × Nat :=
  (runResults obs probe tasks 0, 1)

/-! ## The playlist codec (src/m3u_editor.py:40-62 and 71-127)

Line markers, written as explicit character lists. -/

def hEXTM3U : Str := ['#', 'E', 'X', 'T', 'M', '3', 'U']
def hEXTINF : Str := ['#', 'E', 'X', 'T', 'I', 'N', 'F', ':']
def hVLCOPT : Str := ['#', 'E', 'X', 'T', 'V', 'L', 'C', 'O', 'P', 'T', ':']
/-- `http-user-agent=` -/
def uaKey : Str :=
  ['h', 't', 't', 'p', '-', 'u', 's', 'e', 'r', '-', 'a', 'g', 'e', 'n', 't', '=']
/-- `group-title="` — the fixed text of the group attribute regex. -/
def gkeyQ : Str :=
  ['g', 'r', 'o', 'u', 'p', '-', 't', 'i', 't', 'l', 'e', '=', '"']
/-- `tvg-logo="` — the fixed text of the logo attribute regex. -/
def lkeyQ : Str := ['t', 'v', 'g', '-', 'l', 'o', 'g', 'o', '=', '"']
def unknownName : Str := ['U', 'n', 'k', 'n', 'o', 'w', 'n']

/-- The character class `[-0-9]` of the EXTINF regex. -/
def isDurChar (c : Char) : Bool := c == '-' || c.isDigit

/-- Split `s` at its last comma: `some (before, after)`, or `none` when `s`
has no comma.  This is where the greedy `(.*),(.*)$` of the EXTINF regex
puts the boundary between the attribute text and the display name. -/
def splitAtLastComma (s : Str) : Option (Str × Str) :=
  let r := s.reverse
  let nm := r.takeWhile (fun c => c != ',')
  if nm.length = r.length then none
  else some ((r.drop (nm.length + 1)).reverse, nm.reverse)

/-- Python `line.split(',')[-1]`: the text after the last comma, the whole
line when it has none (the regex-failure fallback, src/m3u_editor.py:110). -/
def afterLastComma (s : Str) : Str :=
  (s.reverse.takeWhile (fun c => c != ',')).reverse

/-- `re.search(key + '([^"]*)"', s)` for a literal `key` ending in `"`:
scan left to right for the first position where `key` matches and a closing
quote follows; capture the text between the quotes. -/
def searchKeyQuoted (key : Str) : Str → Option Str
  | [] => none
  | c :: rest =>
      if strStartsWith (c :: rest) key then
        let after := (c :: rest).drop key.length
        let captured := after.takeWhile (fun x => x != '"')
        if captured.length < after.length then some captured
        else searchKeyQuoted key rest
      else searchKeyQuoted key rest

/-- Python `opt.split('=', 1)[1]`: the text after the first `=` (the call
site has checked an `=` is present). -/
def afterFirstEq (s : Str) : Str :=
  (s.dropWhile (fun c => c != '=')).drop 1

/-- The `#EXTINF:` branch of the parser (src/m3u_editor.py:84-110): match
`^#EXTINF:([-0-9]+)(.*),(.*)$` — the duration is the maximal run of
`[-0-9]` after the colon, the name everything after the last comma — and
extract `group-title="..."` and `tvg-logo="..."` from the attribute text;
on a failed match fall back to `line.split(',')[-1]` as the name. -/
def parseExtinf (line : Str) : M3UEntry :=
  let e0 : M3UEntry := { name := [], url := [] }
  let rest := line.drop 8
  let dur := rest.takeWhile isDurChar
  let tail := rest.drop dur.length
  if dur.isEmpty then { e0 with name := afterLastComma line }
  else
    match splitAtLastComma tail with
    | none => { e0 with name := afterLastComma line }
    | some (attrs, nm) =>
        let e1 := { e0 with duration := dur, name := pyStrip nm }
        let e2 := match searchKeyQuoted gkeyQ attrs with
                  | some g => { e1 with group := g }
                  | none => e1
        match searchKeyQuoted lkeyQ attrs with
        | some l => { e2 with logo := l }
        | none => e2

/-- The parser's running state: the entries emitted so far and the
in-progress `current_entry`. -/
structure ParseState where
  entries : List M3UEntry
  current : Option M3UEntry
deriving Repr

/-- One iteration of the `parse_lines` loop (src/m3u_editor.py:76-126). -/
def parseLine (st : ParseState) (raw : Str) : ParseState :=
  let line := pyStrip raw
  if line.isEmpty then st
  else if strStartsWith line hEXTM3U then st
  else if strStartsWith line hEXTINF then
    { st with current := some (parseExtinf line) }
  else if strStartsWith line hVLCOPT then
    match st.current with
    | none => st
    | some ce =>
        let opt := pyStrip (line.drop 11)
        if strStartsWith (opt.map Char.toLower) uaKey then
          { st with current := some { ce with user_agent := afterFirstEq opt } }
        else st
  else if strStartsWith line ['#'] then st
  else
    match st.current with
    | some ce =>
        { entries := st.entries ++ [{ ce with url := line }], current := none }
    | none =>
        { entries := st.entries ++ [{ name := unknownName, url := line }]
          current := none }

/-- `M3UParser.parse_lines` (src/m3u_editor.py:71-127). -/
def parse_lines (lines : List Str) : List M3UEntry :=
  (lines.foldl parseLine { entries := [], current := none }).entries

/-- Python `" ".join(strs)` for an arbitrary separator. -/
def pyJoin (sep : Str) : List Str → Str
  | [] => []
  | [x] => x
  | x :: xs => x ++ sep ++ pyJoin sep xs

/-- The serializer's `group-title="{group}"` attribute text. -/
def gAttr (g : Str) : Str := gkeyQ ++ g ++ ['"']

/-- The serializer's `tvg-logo="{logo}"` attribute text. -/
def lAttr (l : Str) : Str := lkeyQ ++ l ++ ['"']

/-- The serializer's `attr_str`: the present attributes joined by a blank
(src/m3u_editor.py:45-52). -/
def attrStr (e : M3UEntry) : Str :=
  pyJoin [' ']
    ((if e.group.isEmpty then [] else [gAttr e.group]) ++
      (if e.logo.isEmpty then [] else [lAttr e.logo]))

/-- `attr_str` with the leading blank the serializer prepends when it is
nonempty (src/m3u_editor.py:54-56). -/
def attrStrSp (e : M3UEntry) : Str :=
  if (attrStr e).isEmpty then attrStr e else ' ' :: attrStr e

/-- The rebuilt `#EXTINF:{duration}{attr_str},{name}` line. -/
def metaLine (e : M3UEntry) : Str :=
  hEXTINF ++ e.duration ++ attrStrSp e ++ [','] ++ e.name

/-- The `#EXTVLCOPT:http-user-agent={user_agent}` line. -/
def vlcLine (e : M3UEntry) : Str := hVLCOPT ++ uaKey ++ e.user_agent

/-- The lines `M3UEntry.to_m3u_string` emits (src/m3u_editor.py:40-62):
the rebuilt `#EXTINF` line, an `#EXTVLCOPT` line when a user agent is set,
then the URL line. -/
def to_m3u_lines (e : M3UEntry) : List Str :=
  metaLine e :: (if e.user_agent.isEmpty then [] else [vlcLine e]) ++ [e.url]

/-- `M3UEntry.to_m3u_string` itself: the lines joined with `"\n"`. -/
def to_m3u_string (e : M3UEntry) : Str :=
  pyJoin ['\n'] (to_m3u_lines e)

/-- The lines `M3UParser.save_file` writes (src/m3u_editor.py:139-147):
the `#EXTM3U` header, then each entry's lines. -/
def saveLines (entries : List M3UEntry) : List Str :=
  hEXTM3U :: (entries.map to_m3u_lines).flatten

/-- The full text `M3UParser.save_file` writes (src/m3u_editor.py:139-147):
the `#EXTM3U` header terminated by `"\n"`, then each entry's
`to_m3u_string()` terminated by `"\n"`. -/
def fileText (entries : List M3UEntry) : Str :=
  hEXTM3U ++ '\n' :: (entries.map (fun e => to_m3u_string e ++ ['\n'])).flatten

/-- Reading the file back in text mode (`open(filepath, 'r', ...)`,
src/m3u_editor.py:132) applies Python's universal-newline translation:
`\r\n` and a bare `\r` both become `\n`. -/
def univNewlines : Str → Str
  | [] => []
  | [c] => if c = '\r' then ['\n'] else [c]
  | c :: d :: t =>
      if c = '\r' then
        if d = '\n' then '\n' :: univNewlines t else '\n' :: univNewlines (d :: t)
      else c :: univNewlines (d :: t)

/-- `f.readlines()` on already-translated text: split after every `\n`,
each line keeping its terminator, a last unterminated line kept as is. -/
def readlinesAux : Str → Str → List Str
  | acc, [] => if acc.isEmpty then [] else [acc.reverse]
  | acc, c :: t =>
      if c = '\n' then (acc.reverse ++ ['\n']) :: readlinesAux [] t
      else readlinesAux (c :: acc) t

def readlines (s : Str) : List Str := readlinesAux [] s

/-- `M3UParser.parse_file` on the text of the file (src/m3u_editor.py:129-137):
read in text mode (universal newlines), `readlines()`, then `parse_lines`. -/
def parse_file (s : Str) : List M3UEntry :=
  parse_lines (readlines (univNewlines s))

/-! ## Round-trip wellformedness (claim C1) -/

/-- `group-title=` — the group attribute key without its quote. -/
def gTag : Str := ['g', 'r', 'o', 'u', 'p', '-', 't', 'i', 't', 'l', 'e', '=']

/-- `tvg-logo=` — the logo attribute key without its quote. -/
def lTag : Str := ['t', 'v', 'g', '-', 'l', 'o', 'g', 'o', '=']

/-- No leading and no trailing whitespace: such a string is a fixed point
of Python's `strip()`. -/
def noEdgeSpace (s : Str) : Bool :=
  (match s.head? with
    | none => true
    | some c => !isPySpace c)
  && (match s.getLast? with
      | none => true
      | some c => !isPySpace c)

/-- The fields of an entry that survive a save-then-parse round trip
unchanged.  The spec's Entry invariants alone do not suffice (see the C1
counterexample); this predicate adds what the codec requires:
* `name`: no comma (the name is everything after the *last* comma), no
  edge whitespace (the parser strips it), no `\n` and no `\r` (the written
  line would be split on read);
* `group`/`logo`: no `"` (the attribute values are scanned up to the next
  quote), not ending in the other attribute's key text (which would let
  that key's scan match inside this value), no `\n` and no `\r`;
* `duration`: a nonempty `[-0-9]` run (what the capture group accepts);
* `url`: nonempty, not starting with `#`, no edge whitespace, no `\n` and
  no `\r`;
* `user_agent`: no edge whitespace, no `\n` and no `\r`. -/
def wfEntry (e : M3UEntry) : Prop :=
  (noEdgeSpace e.name = true ∧ ',' ∉ e.name ∧ '\n' ∉ e.name ∧ '\r' ∉ e.name)
  ∧ ('"' ∉ e.group ∧ '\n' ∉ e.group ∧ strEndsWith e.group lTag = false
      ∧ '\r' ∉ e.group)
  ∧ ('"' ∉ e.logo ∧ '\n' ∉ e.logo ∧ strEndsWith e.logo gTag = false
      ∧ '\r' ∉ e.logo)
  ∧ (e.duration ≠ [] ∧ ∀ c ∈ e.duration, isDurChar c = true)
  ∧ (e.url ≠ [] ∧ noEdgeSpace e.url = true ∧ strStartsWith e.url ['#'] = false
      ∧ '\n' ∉ e.url ∧ '\r' ∉ e.url)
  ∧ (noEdgeSpace e.user_agent = true ∧ '\n' ∉ e.user_agent
      ∧ '\r' ∉ e.user_agent)

instance : DecidablePred wfEntry := fun e => by
  unfold wfEntry
  infer_instance

/-- The entry the parser rebuilds from a serialized entry: the six codec
fields unchanged, `raw_extinf` at its parse-side default. -/
def parsedOf (e : M3UEntry) : M3UEntry :=
  { name := e.name, url := e.url, group := e.group, logo := e.logo
    duration := e.duration, user_agent := e.user_agent, raw_extinf := [] }

/-- Equality on the six fields of the round-trip claim. -/
def sixFieldsEq (a b : M3UEntry) : Prop :=
  a.name = b.name ∧ a.url = b.url ∧ a.group = b.group ∧ a.logo = b.logo
    ∧ a.duration = b.duration ∧ a.user_agent = b.user_agent

/-! ## The duration invariant (claim C7) -/

/-- The invariant the parser actually maintains for `duration`: a nonempty
string over the regex class `[-0-9]`. -/
def durOK (d : Str) : Prop := d ≠ [] ∧ ∀ c ∈ d, isDurChar c = true

/-- Python `int(s)` (src claim "parseable as an integer"): strip
whitespace, an optional sign, then a nonempty digit string.  (Python also
allows underscores between digits; no input here contains one.) -/
def natDigitsVal (ds : Str) : Nat :=
  ds.foldl (fun n c => n * 10 + (c.toNat - 48)) 0

def pyParseInt (s : Str) : Option Int :=
  match pyStrip s with
  | [] => none
  | '+' :: ds =>
      if !ds.isEmpty && ds.all Char.isDigit then some (natDigitsVal ds) else none
  | '-' :: ds =>
      if !ds.isEmpty && ds.all Char.isDigit then some (-(natDigitsVal ds : Int))
      else none
  | ds => if ds.all Char.isDigit then some (natDigitsVal ds) else none

/-- `s` is parseable as an integer that is ≥ 0 (the claim's wording). -/
def pyIntNonneg (s : Str) : Bool :=
  match pyParseInt s with
  | some n => decide (0 ≤ n)
  | none => false


/-- A concrete wellformed two-entry playlist for the round-trip witness. -/
def c1wPlaylist : List M3UEntry :=
  [{ name := "News One".toList, url := "http://x/1".toList, group := "News".toList
     logo := "http://logo/1.png".toList, duration := ['-', '1']
     user_agent := "VLC/3.0".toList },
   { name := "Two".toList, url := "http://x/2".toList, duration := ['7'] }]

/-- The spec's Entry invariants (§3): `name`/`url` are strings (trivially
true in this model) and `duration` is `"-1"` or parseable as an
integer ≥ 0. -/
def entryInvariants (e : M3UEntry) : Prop :=
  e.duration = ['-', '1'] ∨ pyIntNonneg e.duration = true

/-- An entry that satisfies the spec's Entry invariants but whose name
holds a comma. -/
def c1CexEntry : M3UEntry :=
  { name := "A,B".toList, url := "http://u".toList }

/-! ## Theorems -/

/-- The undo stack after any sequence of pushes: pushing onto a stack no
longer than 51 keeps it no longer than 51, dropping from the front. -/
theorem pushSnapshot_foldl : ∀ (xs : List Playlist) (acc : List Playlist),
    acc.length ≤ 51 →
    List.foldl pushSnapshot acc xs = (acc ++ xs).drop (acc.length + xs.length - 51)
  | [], acc, hacc => by
      simp [Nat.sub_eq_zero_of_le hacc]
  | x :: xs, acc, hacc => by
      rw [List.foldl_cons]
      by_cases h : acc.length > 50
      · have h51 : acc.length = 51 := le_antisymm hacc h
        obtain ⟨a, acc₀, rfl⟩ : ∃ a acc₀, acc = a :: acc₀ := by
          cases acc with
          | nil => simp at h51
          | cons a t => exact ⟨a, t, rfl⟩
        have hlen : acc₀.length = 50 := by
          simp only [List.length_cons] at h51; omega
        have hpush : pushSnapshot (a :: acc₀) x = acc₀ ++ [x] := by
          rw [pushSnapshot, if_pos h]; rfl
        have hb : (acc₀ ++ [x]).length ≤ 51 := by
          simp only [List.length_append, List.length_cons, List.length_nil]; omega
        rw [hpush, pushSnapshot_foldl xs (acc₀ ++ [x]) hb]
        have harith1 : (acc₀ ++ [x]).length + xs.length - 51 = xs.length := by
          simp only [List.length_append, List.length_cons, List.length_nil]; omega
        have harith2 : (a :: acc₀).length + (x :: xs).length - 51 = xs.length + 1 := by
          simp only [List.length_cons]; omega
        rw [harith1, harith2]
        simp only [List.cons_append, List.drop_succ_cons, List.append_assoc,
          List.singleton_append, List.nil_append]
      · have hpush : pushSnapshot acc x = acc ++ [x] := by
          simp [pushSnapshot, h]
        have hb : (acc ++ [x]).length ≤ 51 := by
          simp only [List.length_append, List.length_cons, List.length_nil]; omega
        rw [hpush, pushSnapshot_foldl xs (acc ++ [x]) hb]
        have harith : (acc ++ [x]).length + xs.length - 51
            = acc.length + (x :: xs).length - 51 := by
          simp only [List.length_append, List.length_cons, List.length_nil]; omega
        rw [harith, List.append_assoc]
        simp only [List.singleton_append]

/-- C3 (amended): the undo stack is in fact bounded by 51 = max_depth + 1,
not by the configured 50: `save_undo_state` checks `len > 50` before the
push, so after any sequence of pushes the stack holds the most recent
`min 51 n` snapshots, the older ones discarded from the front. -/
theorem c3_undo_stack_bound (xs : List Playlist) :
    List.foldl pushSnapshot [] xs = xs.drop (xs.length - 51) := by
  simpa using pushSnapshot_foldl xs [] (by simp)

/-- C3 counterexample: pushing max_depth + 1 = 51 snapshots retains all 51
of them, not only the most recent 50 as the claim states. -/
theorem c3_counterexample :
    (List.foldl pushSnapshot [] (List.replicate 51 ([] : Playlist))).length ≠ 50 := by
  rw [pushSnapshot_foldl _ _ (by simp)]
  simp

/-- C8: undo on an empty undo stack and redo on an empty redo stack are
no-ops reported through the status text: entries and both stacks are
unchanged. -/
theorem c8_history_underflow (s : EditorState) :
    (s.undo_stack = [] → undo s = { s with status := "Nothing to undo." })
    ∧ (s.redo_stack = [] → redo s = { s with status := "Nothing to redo." }) := by
  constructor
  · intro h; simp [undo, h]
  · intro h; simp [redo, h]

/-- C9: moving the first entry up and the last entry down leave the entry
order unchanged. -/
theorem c9_move_boundary (s : EditorState) :
    (move_up (some 0) s).entries = s.entries
    ∧ (move_down (some (s.entries.length - 1)) s).entries = s.entries := by
  constructor
  · simp [move_up, save_undo_state]
  · simp [move_down, save_undo_state]

/-- Membership in the duplicate scan, relative to a starting index and the
URLs already seen: index `k + i` is reported exactly when entry `i` of the
remaining list has a URL in `seen` or equal to an earlier remaining URL. -/
theorem findDupAux_mem : ∀ (es : List M3UEntry) (k : Nat) (seen : List Str) (n : Nat),
    n ∈ findDupAux es k seen ↔
      ∃ i, i < es.length ∧ n = k + i ∧
        ((es.getD i default).url ∈ seen ∨
          ∃ j, j < i ∧ (es.getD j default).url = (es.getD i default).url)
  | [], k, seen, n => by simp [findDupAux]
  | e :: rest, k, seen, n => by
      by_cases hm : e.url ∈ seen
      · rw [findDupAux, if_pos hm]
        simp only [List.mem_cons, findDupAux_mem rest (k + 1) seen n]
        constructor
        · rintro (rfl | ⟨i, hi, rfl, hcase⟩)
          · exact ⟨0, by simp, by simp, Or.inl (by simpa using hm)⟩
          · refine ⟨i + 1, by simp; omega, by omega, ?_⟩
            rcases hcase with hseen | ⟨j, hj, hje⟩
            · exact Or.inl (by simpa using hseen)
            · exact Or.inr ⟨j + 1, by omega, by simpa using hje⟩
        · rintro ⟨i, hi, rfl, hcase⟩
          cases i with
          | zero => exact Or.inl (by omega)
          | succ i' =>
              refine Or.inr ⟨i', by simp at hi; omega, by omega, ?_⟩
              rcases hcase with hseen | ⟨j, hj, hje⟩
              · exact Or.inl (by simpa using hseen)
              · cases j with
                | zero =>
                    simp only [List.getD_cons_zero, List.getD_cons_succ] at hje
                    exact Or.inl (hje ▸ hm)
                | succ j' =>
                    exact Or.inr ⟨j', by omega, by simpa using hje⟩
      · rw [findDupAux, if_neg hm]
        rw [findDupAux_mem rest (k + 1) (e.url :: seen) n]
        constructor
        · rintro ⟨i, hi, rfl, hcase⟩
          refine ⟨i + 1, by simp; omega, by omega, ?_⟩
          rcases hcase with hseen | ⟨j, hj, hje⟩
          · rcases List.mem_cons.mp hseen with heq | hseen'
            · exact Or.inr ⟨0, by omega, by simpa using heq.symm⟩
            · exact Or.inl (by simpa using hseen')
          · exact Or.inr ⟨j + 1, by omega, by simpa using hje⟩
        · rintro ⟨i, hi, rfl, hcase⟩
          cases i with
          | zero =>
              exfalso
              rcases hcase with hseen | ⟨j, hj, _⟩
              · exact hm (by simpa using hseen)
              · omega
          | succ i' =>
              refine ⟨i', by simp at hi; omega, by omega, ?_⟩
              rcases hcase with hseen | ⟨j, hj, hje⟩
              · exact Or.inl (List.mem_cons_of_mem _ (by simpa using hseen))
              · cases j with
                | zero =>
                    simp only [List.getD_cons_zero, List.getD_cons_succ] at hje
                    exact Or.inl (by rw [hje]; exact List.mem_cons_self _ _)
                | succ j' =>
                    exact Or.inr ⟨j', by omega, by simpa using hje⟩

/-- C4: `find_duplicates` returns exactly the indices whose URL equals the
URL of some earlier entry (the first occurrence is never flagged; equality
of URLs is exact), and on URLs `[a, b, a, c, a]` it returns `[2, 4]`. -/
theorem c4_find_duplicates :
    (∀ (es : List M3UEntry) (n : Nat),
        n ∈ find_duplicates es ↔
          n < es.length ∧
            ∃ j, j < n ∧ (es.getD j default).url = (es.getD n default).url)
    ∧ find_duplicates
        [{ name := [], url := ['a'] }, { name := [], url := ['b'] },
         { name := [], url := ['a'] }, { name := [], url := ['c'] },
         { name := [], url := ['a'] }] = [2, 4] := by
  constructor
  · intro es n
    rw [find_duplicates, findDupAux_mem]
    constructor
    · rintro ⟨i, hi, rfl, hcase⟩
      rcases hcase with hseen | ⟨j, hj, hje⟩
      · simp at hseen
      · exact ⟨by omega, j, by omega, by simpa using hje⟩
    · rintro ⟨hn, j, hj, hje⟩
      exact ⟨n, hn, by omega, Or.inr ⟨j, hj, hje⟩⟩
  · rfl

/-- After a sequence of snapshot-then-mutate edits that never overflows the
undo stack, as many undos return to the starting entries and the starting
undo stack (the redo stack and status text vary). -/
theorem undo_iterate_foldEdits : ∀ (fs : List (Playlist → Playlist)) (s : EditorState),
    s.undo_stack.length + fs.length ≤ 51 →
    ∃ r st, undo^[fs.length] (foldEdits fs s) =
      { entries := s.entries, undo_stack := s.undo_stack, redo_stack := r, status := st }
  | [], s, _ => ⟨s.redo_stack, s.status, rfl⟩
  | f :: fs, s, hb => by
      have hle : ¬ s.undo_stack.length > 50 := by
        simp only [List.length_cons] at hb; omega
      have happ : applyEdit f s =
          { entries := f s.entries
            undo_stack := s.undo_stack ++ [s.entries]
            redo_stack := []
            status := "State saved." } := by
        simp only [applyEdit, save_undo_state, pushSnapshot, if_neg hle]
      have hfold : foldEdits (f :: fs) s = foldEdits fs (applyEdit f s) := rfl
      have hb' : (applyEdit f s).undo_stack.length + fs.length ≤ 51 := by
        rw [happ]
        simp only [List.length_append, List.length_cons, List.length_nil]
        simp only [List.length_cons] at hb
        omega
      obtain ⟨r, st, hrec⟩ := undo_iterate_foldEdits fs (applyEdit f s) hb'
      refine ⟨r ++ [f s.entries], "Undone last action.", ?_⟩
      have hlen : (f :: fs).length = fs.length + 1 := rfl
      rw [hfold, hlen, Function.iterate_succ_apply', hrec, happ]
      simp only [undo, List.getLast?_concat, List.dropLast_concat]

/-- C2: after N snapshot-then-mutate operations with N ≤ 50 (the configured
max depth), N sequential undos restore the original playlist; a redo
immediately after an undo restores the pre-undo state (entries and stacks);
and a new mutation clears the redo stack, so a following redo changes
nothing but the status text. -/
theorem c2_undo_redo (e0 : Playlist) (fs : List (Playlist → Playlist))
    (hlen : fs.length ≤ 50) :
    (undo^[fs.length] (foldEdits fs (initState e0))).entries = e0
    ∧ (∀ s : EditorState, s.undo_stack ≠ [] →
        redo (undo s) = { s with status := "Redone last action." })
    ∧ (∀ (s : EditorState) (f : Playlist → Playlist),
        (applyEdit f s).redo_stack = [] ∧
        redo (applyEdit f s) = { applyEdit f s with status := "Nothing to redo." }) := by
  refine ⟨?_, ?_, ?_⟩
  · obtain ⟨r, st, h⟩ := undo_iterate_foldEdits fs (initState e0)
      (by simp only [initState, List.length_nil]; omega)
    rw [h]
    rfl
  · intro s hne
    rcases List.eq_nil_or_concat s.undo_stack with hnil | ⟨L, b, hL⟩
    · exact absurd hnil hne
    · rw [List.concat_eq_append] at hL
      have hu : undo s =
          { entries := b, undo_stack := L
            redo_stack := s.redo_stack ++ [s.entries]
            status := "Undone last action." } := by
        simp only [undo, hL, List.getLast?_concat, List.dropLast_concat]
      rw [hu]
      simp only [redo, List.getLast?_concat, List.dropLast_concat]
      cases s with
      | mk e us rs st => simp only at hL ⊢; rw [hL]
  · intro s f
    exact ⟨rfl, rfl⟩

/-- C2 witness: one add-entry edit on the empty playlist, then one undo,
returns the empty playlist. -/
theorem c2_undo_redo_witness :
    (undo^[1] (foldEdits [fun l => ({ name := [], url := [] } : M3UEntry) :: l]
        (initState []))).entries = ([] : Playlist)
    ∧ (∀ s : EditorState, s.undo_stack ≠ [] →
        redo (undo s) = { s with status := "Redone last action." })
    ∧ (∀ (s : EditorState) (f : Playlist → Playlist),
        (applyEdit f s).redo_stack = [] ∧
        redo (applyEdit f s) = { applyEdit f s with status := "Nothing to redo." }) :=
  c2_undo_redo [] [fun l => ({ name := [], url := [] } : M3UEntry) :: l] (by simp)

/-- C5: `check_url` never raises (it is a total function to
`(is_valid, message)`), and:
* a response with status in `[200, 400)` yields `(true, "OK (status)")`;
* an HTTP 405 on the HEAD probe consults the GET retry — a successful GET
  yields valid — and no other HEAD outcome consults it;
* any other HTTP error, and any timeout or transport error, yields
  `(false, reason)`. -/
theorem c5_check_url :
    (∀ (s : Nat) (g : ProbeOutcome), 200 ≤ s → s < 400 →
        check_url (.resp s) g = (true, "OK (" ++ toString s ++ ")"))
    ∧ (∀ s : Nat, 200 ≤ s → s < 400 →
        check_url (.httpError 405) (.resp s) = (true, "OK (" ++ toString s ++ ")"))
    ∧ (∀ h g₁ g₂ : ProbeOutcome, h ≠ .httpError 405 → check_url h g₁ = check_url h g₂)
    ∧ (∀ (c : Nat) (g : ProbeOutcome), c ≠ 405 →
        check_url (.httpError c) g = (false, "HTTP " ++ toString c))
    ∧ (∀ (m : String) (g : ProbeOutcome), check_url (.exn m) g = (false, "Error: " ++ m))
    ∧ check_url (.resp 200) (.exn "unused") = (true, "OK (200)") := by
  refine ⟨?_, ?_, ?_, ?_, ?_, ?_⟩
  · intro s g h1 h2
    simp [check_url, h1, h2]
  · intro s h1 h2
    simp [check_url, h1, h2]
  · intro h g₁ g₂ hne
    cases h with
    | resp s => rfl
    | httpError c =>
        have hc : c ≠ 405 := by
          intro rfl_c; exact hne (by rw [rfl_c])
        simp [check_url, hc]
    | exn m => rfl
  · intro c g hc
    cases g <;> simp [check_url, hc]
  · intro m g
    rfl
  · rfl

/-- The worker loop emits the results of an initial segment of its task
list, in task order: it stops at the first iteration that observes
`is_running == False`, and a task is probed only at an iteration that
observed the flag true. -/
theorem runResults_take : ∀ (ts : List VTask) (i : Nat) (obs : Nat → Bool)
    (probe : VTask → Bool × String),
    ∃ k, k ≤ ts.length ∧
      runResults obs probe ts i =
        (ts.take k).map (fun t => (t.row, (probe t).1, (probe t).2)) ∧
      (∀ j, obs (i + j) = false → k ≤ j) ∧
      (∀ j, j < k → obs (i + j) = true)
  | [], i, obs, probe => ⟨0, by simp [runResults]⟩
  | t :: ts, i, obs, probe => by
      by_cases h : obs i = true
      · obtain ⟨k, hk, hrun, hstop, htrue⟩ := runResults_take ts (i + 1) obs probe
        refine ⟨k + 1, by simpa using hk, ?_, ?_, ?_⟩
        · rw [runResults, if_pos h, hrun]
          simp
        · intro j hj
          cases j with
          | zero => rw [Nat.add_zero] at hj; rw [hj] at h; exact absurd h (by simp)
          | succ j' =>
              have := hstop j' (by rw [← hj]; ring_nf)
              omega
        · intro j hj
          cases j with
          | zero => simpa using h
          | succ j' =>
              have := htrue j' (by omega)
              rw [← this]; ring_nf
      · refine ⟨0, by simp, ?_, fun j _ => Nat.zero_le j, fun j hj => by omega⟩
        rw [runResults, if_neg h]
        simp

/-- C6: for every task list, observation sequence of the cancellation flag
and probe oracle, the run's result emissions are the probe results of a
prefix of the task list; no task at or after an iteration that observed
cancellation is started; and exactly one completion signal is emitted. -/
theorem c6_cancellation (obs : Nat → Bool) (probe : VTask → Bool × String)
    (tasks : List VTask) :
    ∃ k, k ≤ tasks.length ∧
      (runEmissions obs probe tasks).1 =
        (tasks.take k).map (fun t => (t.row, (probe t).1, (probe t).2)) ∧
      (∀ i, obs i = false → k ≤ i) ∧
      (∀ i, i < k → obs i = true) ∧
      (runEmissions obs probe tasks).2 = 1 := by
  obtain ⟨k, hk, hrun, hstop, htrue⟩ := runResults_take tasks 0 obs probe
  exact ⟨k, hk, hrun, fun i hi => by simpa using hstop i (by simpa using hi),
    fun i hi => by simpa using htrue i hi, rfl⟩

/-- The entry built from an `#EXTINF:` line always carries a `durOK`
duration: the regex capture `([-0-9]+)` is a nonempty `[-0-9]` run, and on
a failed match the default `"-1"` survives. -/
theorem parseExtinf_durOK (line : Str) : durOK (parseExtinf line).duration := by
  unfold parseExtinf
  dsimp only
  split
  · exact ⟨by simp, by dsimp only; decide⟩
  · split
    · exact ⟨by simp, by dsimp only; decide⟩
    · rename_i hne hsplit attrs nm heq
      constructor
      · split <;> split <;>
          simpa [List.isEmpty_iff] using hne
      · split <;> split <;>
          exact fun c hc => List.mem_takeWhile_imp hc

/-! Case equations for `parseLine`, one per branch of the loop body. -/

theorem parseLine_blank (st : ParseState) (raw : Str)
    (h0 : (pyStrip raw).isEmpty = true) : parseLine st raw = st := by
  simp [parseLine, h0]

theorem parseLine_header (st : ParseState) (raw : Str)
    (h0 : (pyStrip raw).isEmpty = false)
    (h1 : strStartsWith (pyStrip raw) hEXTM3U = true) : parseLine st raw = st := by
  simp [parseLine, h0, h1]

theorem parseLine_extinf (st : ParseState) (raw : Str)
    (h0 : (pyStrip raw).isEmpty = false)
    (h1 : strStartsWith (pyStrip raw) hEXTM3U = false)
    (h2 : strStartsWith (pyStrip raw) hEXTINF = true) :
    parseLine st raw = { st with current := some (parseExtinf (pyStrip raw)) } := by
  simp [parseLine, h0, h1, h2]

theorem parseLine_vlcopt_none (st : ParseState) (raw : Str)
    (h0 : (pyStrip raw).isEmpty = false)
    (h1 : strStartsWith (pyStrip raw) hEXTM3U = false)
    (h2 : strStartsWith (pyStrip raw) hEXTINF = false)
    (h3 : strStartsWith (pyStrip raw) hVLCOPT = true)
    (hc : st.current = none) : parseLine st raw = st := by
  simp [parseLine, h0, h1, h2, h3, hc]

theorem parseLine_vlcopt_set (st : ParseState) (raw : Str) (ce : M3UEntry)
    (h0 : (pyStrip raw).isEmpty = false)
    (h1 : strStartsWith (pyStrip raw) hEXTM3U = false)
    (h2 : strStartsWith (pyStrip raw) hEXTINF = false)
    (h3 : strStartsWith (pyStrip raw) hVLCOPT = true)
    (hc : st.current = some ce)
    (h4 : strStartsWith ((pyStrip ((pyStrip raw).drop 11)).map Char.toLower)
        uaKey = true) :
    parseLine st raw = { st with current := some { ce with user_agent := afterFirstEq (pyStrip ((pyStrip raw).drop 11)) } } := by
  simp [parseLine, h0, h1, h2, h3, hc, h4]

theorem parseLine_vlcopt_skip (st : ParseState) (raw : Str) (ce : M3UEntry)
    (h0 : (pyStrip raw).isEmpty = false)
    (h1 : strStartsWith (pyStrip raw) hEXTM3U = false)
    (h2 : strStartsWith (pyStrip raw) hEXTINF = false)
    (h3 : strStartsWith (pyStrip raw) hVLCOPT = true)
    (hc : st.current = some ce)
    (h4 : strStartsWith ((pyStrip ((pyStrip raw).drop 11)).map Char.toLower)
        uaKey = false) :
    parseLine st raw = st := by
  simp [parseLine, h0, h1, h2, h3, hc, h4]

theorem parseLine_comment (st : ParseState) (raw : Str)
    (h0 : (pyStrip raw).isEmpty = false)
    (h1 : strStartsWith (pyStrip raw) hEXTM3U = false)
    (h2 : strStartsWith (pyStrip raw) hEXTINF = false)
    (h3 : strStartsWith (pyStrip raw) hVLCOPT = false)
    (h5 : strStartsWith (pyStrip raw) ['#'] = true) : parseLine st raw = st := by
  simp [parseLine, h0, h1, h2, h3, h5]

theorem parseLine_url_some (st : ParseState) (raw : Str) (ce : M3UEntry)
    (h0 : (pyStrip raw).isEmpty = false)
    (h1 : strStartsWith (pyStrip raw) hEXTM3U = false)
    (h2 : strStartsWith (pyStrip raw) hEXTINF = false)
    (h3 : strStartsWith (pyStrip raw) hVLCOPT = false)
    (h5 : strStartsWith (pyStrip raw) ['#'] = false)
    (hc : st.current = some ce) :
    parseLine st raw =
      { entries := st.entries ++ [{ ce with url := pyStrip raw }]
        current := none } := by
  simp [parseLine, h0, h1, h2, h3, h5, hc]

theorem parseLine_url_fresh (st : ParseState) (raw : Str)
    (h0 : (pyStrip raw).isEmpty = false)
    (h1 : strStartsWith (pyStrip raw) hEXTM3U = false)
    (h2 : strStartsWith (pyStrip raw) hEXTINF = false)
    (h3 : strStartsWith (pyStrip raw) hVLCOPT = false)
    (h5 : strStartsWith (pyStrip raw) ['#'] = false)
    (hc : st.current = none) :
    parseLine st raw =
      { entries := st.entries ++ [{ name := unknownName, url := pyStrip raw }]
        current := none } := by
  simp [parseLine, h0, h1, h2, h3, h5, hc]

/-- A line that starts with a marker `c :: t` starts with `[c]`. -/
theorem strStartsWith_head {l p : Str} {c : Char} {t : Str} (hp : p = c :: t)
    (h : strStartsWith l p = true) : strStartsWith l [c] = true := by
  rw [strStartsWith, List.isPrefixOf_iff_prefix] at h ⊢
  subst hp
  obtain ⟨r, hr⟩ := h
  exact ⟨t ++ r, by simpa using hr⟩

/-- One parser step preserves the duration invariant on the emitted
entries and the in-progress entry. -/
theorem parseLine_durOK (st : ParseState) (raw : Str)
    (hent : ∀ e ∈ st.entries, durOK e.duration)
    (hcur : ∀ e, st.current = some e → durOK e.duration) :
    (∀ e ∈ (parseLine st raw).entries, durOK e.duration)
    ∧ (∀ e, (parseLine st raw).current = some e → durOK e.duration) := by
  by_cases h0 : (pyStrip raw).isEmpty = true
  · rw [parseLine_blank st raw h0]; exact ⟨hent, hcur⟩
  replace h0 := Bool.eq_false_iff.mpr h0
  by_cases h1 : strStartsWith (pyStrip raw) hEXTM3U = true
  · rw [parseLine_header st raw h0 h1]; exact ⟨hent, hcur⟩
  replace h1 := Bool.eq_false_iff.mpr h1
  by_cases h2 : strStartsWith (pyStrip raw) hEXTINF = true
  · rw [parseLine_extinf st raw h0 h1 h2]
    refine ⟨hent, fun e he => ?_⟩
    simp only [Option.some.injEq] at he
    rw [← he]
    exact parseExtinf_durOK _
  replace h2 := Bool.eq_false_iff.mpr h2
  by_cases h3 : strStartsWith (pyStrip raw) hVLCOPT = true
  · cases hc : st.current with
    | none => rw [parseLine_vlcopt_none st raw h0 h1 h2 h3 hc]; exact ⟨hent, hcur⟩
    | some ce =>
        by_cases h4 : strStartsWith ((pyStrip ((pyStrip raw).drop 11)).map
            Char.toLower) uaKey = true
        · rw [parseLine_vlcopt_set st raw ce h0 h1 h2 h3 hc h4]
          refine ⟨hent, fun e he => ?_⟩
          simp only [Option.some.injEq] at he
          rw [← he]
          exact hcur ce hc
        · replace h4 := Bool.eq_false_iff.mpr h4
          rw [parseLine_vlcopt_skip st raw ce h0 h1 h2 h3 hc h4]
          exact ⟨hent, hcur⟩
  replace h3 := Bool.eq_false_iff.mpr h3
  by_cases h5 : strStartsWith (pyStrip raw) ['#'] = true
  · rw [parseLine_comment st raw h0 h1 h2 h3 h5]; exact ⟨hent, hcur⟩
  replace h5 := Bool.eq_false_iff.mpr h5
  cases hc : st.current with
  | some ce =>
      rw [parseLine_url_some st raw ce h0 h1 h2 h3 h5 hc]
      refine ⟨fun e he => ?_, by simp⟩
      rcases List.mem_append.mp he with hold | hnew
      · exact hent e hold
      · have : e = { ce with url := pyStrip raw } := by simpa using hnew
        rw [this]
        exact hcur ce hc
  | none =>
      rw [parseLine_url_fresh st raw h0 h1 h2 h3 h5 hc]
      refine ⟨fun e he => ?_, by simp⟩
      rcases List.mem_append.mp he with hold | hnew
      · exact hent e hold
      · have : e = { name := unknownName, url := pyStrip raw } := by
          simpa using hnew
        rw [this]
        exact ⟨by simp, by dsimp only; decide⟩

/-- The invariant over the whole fold. -/
theorem parse_fold_durOK : ∀ (lines : List Str) (st : ParseState),
    (∀ e ∈ st.entries, durOK e.duration) →
    (∀ e, st.current = some e → durOK e.duration) →
    ∀ e ∈ (lines.foldl parseLine st).entries, durOK e.duration
  | [], st, hent, _ => by simpa using hent
  | raw :: lines, st, hent, hcur => by
      rw [List.foldl_cons]
      obtain ⟨h1, h2⟩ := parseLine_durOK st raw hent hcur
      exact parse_fold_durOK lines (parseLine st raw) h1 h2

/-- C7 (amended): every entry the parser produces has a duration that is a
nonempty string over `[-0-9]` — but not necessarily `"-1"` or a
nonnegative integer, see the counterexample. -/
theorem c7_duration_amended : ∀ (lines : List Str), ∀ e ∈ parse_lines lines,
    e.duration ≠ [] ∧ ∀ c ∈ e.duration, isDurChar c = true := by
  intro lines e he
  exact parse_fold_durOK lines { entries := [], current := none }
    (by simp) (by simp) e he

/-- C7 witness: the playlist `#EXTINF:7,X` / `u` parses to an entry whose
duration `"7"` satisfies the amended invariant. -/
theorem c7_duration_amended_witness :
    ({ name := ['X'], url := ['u'], duration := ['7'] } : M3UEntry).duration ≠ []
    ∧ ∀ c ∈ ({ name := ['X'], url := ['u'], duration := ['7'] } : M3UEntry).duration,
        isDurChar c = true :=
  c7_duration_amended [['#', 'E', 'X', 'T', 'I', 'N', 'F', ':', '7', ',', 'X'], ['u']]
    { name := ['X'], url := ['u'], duration := ['7'] } (by decide)

/-- C7 counterexample: the line `#EXTINF:-5,X` parses to duration `"-5"`,
which is neither `"-1"` nor parseable as an integer ≥ 0. -/
theorem c7_counterexample :
    ((parse_lines [['#', 'E', 'X', 'T', 'I', 'N', 'F', ':', '-', '5', ',', 'X'],
        ['u']]).getD 0 default).duration = ['-', '5']
    ∧ ¬(['-', '5'] = ['-', '1'] ∨ pyIntNonneg ['-', '5'] = true) := by
  decide

/-- A line that does not start with `#` starts with no `#`-marker. -/
theorem not_marker_of_not_hash {l p : Str} {c : Char} {t : Str} (hp : p = c :: t)
    (h5 : strStartsWith l [c] = false) : strStartsWith l p = false := by
  cases hx : strStartsWith l p
  · rfl
  · exact absurd (strStartsWith_head hp hx) (by simp [h5])

/-- The URLs of the parse result, relative to any starting state: exactly
the stripped non-blank non-`#` lines, in order, appended to the URLs
already emitted.  (The in-progress entry never contributes a URL.) -/
theorem parse_fold_urls : ∀ (lines : List Str) (st : ParseState),
    ((lines.foldl parseLine st).entries).map (fun e => e.url)
      = st.entries.map (fun e => e.url)
        ++ (lines.map pyStrip).filter
            (fun l => !l.isEmpty && !(strStartsWith l ['#']))
  | [], st => by simp
  | raw :: lines, st => by
      rw [List.foldl_cons, List.map_cons, List.filter_cons]
      by_cases h0 : (pyStrip raw).isEmpty = true
      · rw [parseLine_blank st raw h0, parse_fold_urls lines st]
        simp [h0]
      replace h0 := Bool.eq_false_iff.mpr h0
      by_cases h1 : strStartsWith (pyStrip raw) hEXTM3U = true
      · have h5 : strStartsWith (pyStrip raw) ['#'] = true :=
          strStartsWith_head (show hEXTM3U = '#' :: ['E', 'X', 'T', 'M', '3', 'U'] from rfl) h1
        rw [parseLine_header st raw h0 h1, parse_fold_urls lines st]
        simp [h5]
      replace h1 := Bool.eq_false_iff.mpr h1
      by_cases h2 : strStartsWith (pyStrip raw) hEXTINF = true
      · have h5 : strStartsWith (pyStrip raw) ['#'] = true :=
          strStartsWith_head
            (show hEXTINF = '#' :: ['E', 'X', 'T', 'I', 'N', 'F', ':'] from rfl) h2
        rw [parseLine_extinf st raw h0 h1 h2, parse_fold_urls lines _]
        simp [h5]
      replace h2 := Bool.eq_false_iff.mpr h2
      by_cases h3 : strStartsWith (pyStrip raw) hVLCOPT = true
      · have h5 : strStartsWith (pyStrip raw) ['#'] = true :=
          strStartsWith_head
            (show hVLCOPT = '#' :: ['E', 'X', 'T', 'V', 'L', 'C', 'O', 'P', 'T', ':']
              from rfl) h3
        cases hc : st.current with
        | none =>
            rw [parseLine_vlcopt_none st raw h0 h1 h2 h3 hc, parse_fold_urls lines st]
            simp [h5]
        | some ce =>
            by_cases h4 : strStartsWith ((pyStrip ((pyStrip raw).drop 11)).map
                Char.toLower) uaKey = true
            · rw [parseLine_vlcopt_set st raw ce h0 h1 h2 h3 hc h4,
                parse_fold_urls lines _]
              simp [h5]
            · replace h4 := Bool.eq_false_iff.mpr h4
              rw [parseLine_vlcopt_skip st raw ce h0 h1 h2 h3 hc h4,
                parse_fold_urls lines st]
              simp [h5]
      replace h3 := Bool.eq_false_iff.mpr h3
      by_cases h5 : strStartsWith (pyStrip raw) ['#'] = true
      · rw [parseLine_comment st raw h0 h1 h2 h3 h5, parse_fold_urls lines st]
        simp [h5]
      replace h5 := Bool.eq_false_iff.mpr h5
      cases hc : st.current with
      | some ce =>
          rw [parseLine_url_some st raw ce h0 h1 h2 h3 h5 hc, parse_fold_urls lines _]
          simp [h0, h5]
      | none =>
          rw [parseLine_url_fresh st raw h0 h1 h2 h3 h5 hc, parse_fold_urls lines _]
          simp [h0, h5]

/-- C10: the URLs of the entries `parse_lines` returns are exactly the
stripped, non-blank, non-`#` input lines, in order — so a final
`#EXTINF`/option group not followed by such a line produces no entry, and
every entry's `url` comes from a non-`#` line of the input. -/
theorem c10_parser_urls (lines : List Str) :
    (parse_lines lines).map (fun e => e.url)
      = (lines.map pyStrip).filter
          (fun l => !l.isEmpty && !(strStartsWith l ['#'])) := by
  have h := parse_fold_urls lines { entries := [], current := none }
  simpa [parse_lines] using h

/-! ### String lemmas for the round trip -/

theorem takeWhile_append_stop {α : Type} (p : α → Bool) :
    ∀ (d : List α) (c : α) (t : List α), (∀ x ∈ d, p x = true) → p c = false →
    (d ++ c :: t).takeWhile p = d
  | [], c, t, _, hc => by simp [List.takeWhile_cons, hc]
  | a :: d, c, t, hd, hc => by
      have ha := hd a (List.mem_cons_self a d)
      simp only [List.cons_append, List.takeWhile_cons, ha, if_true]
      rw [takeWhile_append_stop p d c t (fun x hx => hd x (List.mem_cons_of_mem a hx)) hc]

theorem dropWhile_append_stop {α : Type} (p : α → Bool) :
    ∀ (d : List α) (c : α) (t : List α), (∀ x ∈ d, p x = true) → p c = false →
    (d ++ c :: t).dropWhile p = c :: t
  | [], c, t, _, hc => by simp [List.dropWhile_cons, hc]
  | a :: d, c, t, hd, hc => by
      have ha := hd a (List.mem_cons_self a d)
      simp only [List.cons_append, List.dropWhile_cons, ha, if_true]
      exact dropWhile_append_stop p d c t (fun x hx => hd x (List.mem_cons_of_mem a hx)) hc

theorem lstrip_cons_of (a : Char) (t : Str) (ha : isPySpace a = false) :
    lstrip (a :: t) = a :: t := by
  simp [lstrip, List.dropWhile_cons, ha]

theorem rstrip_concat_of (t : Str) (b : Char) (hb : isPySpace b = false) :
    rstrip (t ++ [b]) = t ++ [b] := by
  simp [rstrip, List.reverse_append, List.dropWhile_cons, hb]

theorem noEdgeSpace_head {a : Char} {t : Str} (h : noEdgeSpace (a :: t) = true) :
    isPySpace a = false := by
  rw [noEdgeSpace, Bool.and_eq_true] at h
  have h1 := h.1
  simp only [List.head?_cons] at h1
  simpa using h1

theorem noEdgeSpace_last {t : Str} {b : Char} (h : noEdgeSpace (t ++ [b]) = true) :
    isPySpace b = false := by
  rw [noEdgeSpace, Bool.and_eq_true] at h
  have h2 := h.2
  rw [List.getLast?_concat] at h2
  simpa using h2

/-- A string with no edge whitespace is a `strip()` fixed point. -/
theorem pyStrip_fix (s : Str) (h : noEdgeSpace s = true) : pyStrip s = s := by
  rcases List.eq_nil_or_concat s with rfl | ⟨L, b, rfl⟩
  · rfl
  · simp only [List.concat_eq_append] at h ⊢
    have hb : isPySpace b = false := noEdgeSpace_last h
    cases L with
    | nil =>
        simp only [List.nil_append] at h ⊢
        have ha : isPySpace b = false := noEdgeSpace_head (t := []) h
        rw [pyStrip, lstrip_cons_of b [] ha]
        simpa using rstrip_concat_of [] b hb
    | cons a L' =>
        have ha : isPySpace a = false := by
          rw [List.cons_append] at h
          exact noEdgeSpace_head h
        rw [pyStrip, List.cons_append, lstrip_cons_of a (L' ++ [b]) ha,
          ← List.cons_append, rstrip_concat_of (a :: L') b hb]

theorem strStartsWith_iff (s p : Str) : strStartsWith s p = true ↔ p <+: s := by
  rw [strStartsWith, List.isPrefixOf_iff_prefix]

theorem strStartsWith_false_iff (s p : Str) : strStartsWith s p = false ↔ ¬ p <+: s := by
  rw [← strStartsWith_iff]
  cases strStartsWith s p <;> simp

theorem strStartsWith_append_self (p x : Str) : strStartsWith (p ++ x) p = true := by
  rw [strStartsWith_iff]
  exact List.prefix_append p x

theorem strEndsWith_iff (s p : Str) : strEndsWith s p = true ↔ p.reverse <+: s.reverse := by
  rw [strEndsWith, List.isPrefixOf_iff_prefix]

theorem strEndsWith_self (s : Str) : strEndsWith s s = true := by
  rw [strEndsWith_iff]

theorem strEndsWith_cons_of (c : Char) (s t : Str) (h : strEndsWith s t = true) :
    strEndsWith (c :: s) t = true := by
  rw [strEndsWith_iff] at h ⊢
  rw [List.reverse_cons]
  exact h.trans (List.prefix_append _ _)

/-- `splitAtLastComma` on text whose final comma is explicit: splits there
when the name part has no comma. -/
theorem splitAtLastComma_append (a nm : Str) (hnm : ',' ∉ nm) :
    splitAtLastComma (a ++ ',' :: nm) = some (a, nm) := by
  have hrev : (a ++ ',' :: nm).reverse = nm.reverse ++ ',' :: a.reverse := by
    simp
  have htw : (nm.reverse ++ ',' :: a.reverse).takeWhile (fun c => c != ',') =
      nm.reverse := by
    apply takeWhile_append_stop
    · intro x hx
      have hxm : x ∈ nm := List.mem_reverse.mp hx
      have hxne : x ≠ ',' := fun hcon => hnm (hcon ▸ hxm)
      simpa using hxne
    · decide
  unfold splitAtLastComma
  dsimp only
  rw [hrev, htw]
  rw [if_neg (by simp)]
  have hdrop : (nm.reverse ++ ',' :: a.reverse).drop (nm.reverse.length + 1)
      = a.reverse := by
    have h1 : nm.reverse ++ ',' :: a.reverse = (nm.reverse ++ [',']) ++ a.reverse := by
      simp
    have h2 : nm.reverse.length + 1 = (nm.reverse ++ [',']).length := by simp
    rw [h1, h2, List.drop_left]
  rw [hdrop]
  simp

/-! ### `searchKeyQuoted` lemmas -/

theorem searchKeyQuoted_skip (key : Str) (c : Char) (t : Str)
    (h : strStartsWith (c :: t) key = false) :
    searchKeyQuoted key (c :: t) = searchKeyQuoted key t := by
  rw [searchKeyQuoted, if_neg (by simp [h])]

/-- The quoted-value pattern cannot match at the start of a quote-free
text `w` followed by a closing quote, unless `w` is the key's text. -/
theorem not_prefix_val : ∀ (w key9 rest : Str), '"' ∉ w → '"' ∉ key9 → w ≠ key9 →
    ¬ ((key9 ++ ['"']) <+: (w ++ '"' :: rest))
  | [], [], _, _, _, hne => absurd rfl hne
  | [], k :: ks, rest, _, hk9, _ => by
      intro hpre
      rw [List.nil_append, List.cons_append, List.cons_prefix_cons] at hpre
      exact hk9 (by rw [hpre.1]; exact List.mem_cons_self _ _)
  | a :: w', [], rest, hw, _, _ => by
      intro hpre
      rw [List.nil_append, List.cons_append, List.cons_prefix_cons] at hpre
      exact hw (by rw [← hpre.1]; exact List.mem_cons_self _ _)
  | a :: w', k :: ks, rest, hw, hk9, hne => by
      intro hpre
      rw [List.cons_append, List.cons_append, List.cons_prefix_cons] at hpre
      obtain ⟨hak, hrest⟩ := hpre
      exact not_prefix_val w' ks rest
        (fun hq => hw (List.mem_cons_of_mem a hq))
        (fun hq => hk9 (List.mem_cons_of_mem k hq))
        (fun heq => hne (by rw [heq, ← hak]))
        hrest

/-- Scanning for `key9"` passes over a quote-free value `v` (that does not
end in `key9`) and its closing quote without matching. -/
theorem searchKeyQuoted_through : ∀ (key9 v rest : Str), key9 ≠ [] → '"' ∉ key9 →
    '"' ∉ v → strEndsWith v key9 = false →
    searchKeyQuoted (key9 ++ ['"']) (v ++ '"' :: rest)
      = searchKeyQuoted (key9 ++ ['"']) rest
  | key9, [], rest, hne, hk9, _, _ => by
      rw [List.nil_append]
      apply searchKeyQuoted_skip
      rw [strStartsWith_false_iff]
      intro hpre
      obtain ⟨k, ks, rfl⟩ : ∃ k ks, key9 = k :: ks := by
        cases key9 with
        | nil => exact absurd rfl hne
        | cons k ks => exact ⟨k, ks, rfl⟩
      rw [List.cons_append, List.cons_prefix_cons] at hpre
      exact hk9 (by rw [hpre.1]; exact List.mem_cons_self _ _)
  | key9, c :: v', rest, hne, hk9, hv, hend => by
      rw [List.cons_append]
      rw [searchKeyQuoted_skip _ c _ ?hskip]
      · exact searchKeyQuoted_through key9 v' rest hne hk9
          (fun h => hv (List.mem_cons_of_mem c h))
          (by
            cases hE : strEndsWith v' key9
            · rfl
            · exact absurd (strEndsWith_cons_of c v' key9 hE) (by simp [hend]))
      case hskip =>
        rw [strStartsWith_false_iff]
        have hwne : c :: v' ≠ key9 := by
          intro heq
          rw [heq, strEndsWith_self] at hend
          simp at hend
        exact not_prefix_val (c :: v') key9 rest hv hk9 hwne

/-- Scanning for `key"` at text that starts with the key: the quote-free
value up to the next quote is captured. -/
theorem searchKeyQuoted_here (key v rest : Str) (hkey : key ≠ []) (hv : '"' ∉ v) :
    searchKeyQuoted key (key ++ (v ++ '"' :: rest)) = some v := by
  obtain ⟨k, ks, rfl⟩ : ∃ k ks, key = k :: ks := by
    cases key with
    | nil => exact absurd rfl hkey
    | cons k ks => exact ⟨k, ks, rfl⟩
  rw [List.cons_append, searchKeyQuoted]
  rw [if_pos (by rw [← List.cons_append]; exact strStartsWith_append_self _ _)]
  dsimp only
  rw [← List.cons_append, List.drop_left]
  rw [takeWhile_append_stop _ v '"' rest
    (fun x hx => by
      have hxne : x ≠ '"' := fun hcon => hv (hcon ▸ hx)
      simpa using hxne)
    (by decide)]
  rw [if_pos (by simp)]

theorem gkeyQ_eq : gkeyQ = gTag ++ ['"'] := rfl

theorem lkeyQ_eq : lkeyQ = lTag ++ ['"'] := rfl

/-- Group search finds the serialized group attribute at its position. -/
theorem searchGroup_in (g rest : Str) (hg : '"' ∉ g) :
    searchKeyQuoted gkeyQ (' ' :: (gkeyQ ++ (g ++ '"' :: rest))) = some g := by
  rw [searchKeyQuoted_skip gkeyQ ' ' _ (by rfl)]
  exact searchKeyQuoted_here gkeyQ g rest (by decide) hg

/-- Logo search finds the serialized logo attribute at its position. -/
theorem searchLogo_in (l rest : Str) (hl : '"' ∉ l) :
    searchKeyQuoted lkeyQ (' ' :: (lkeyQ ++ (l ++ '"' :: rest))) = some l := by
  rw [searchKeyQuoted_skip lkeyQ ' ' _ (by rfl)]
  exact searchKeyQuoted_here lkeyQ l rest (by decide) hl

/-- Logo search passes over the serialized group attribute. -/
theorem searchLogo_past_group (g rest : Str) (hg : '"' ∉ g)
    (hge : strEndsWith g lTag = false) :
    searchKeyQuoted lkeyQ ((' ' :: gTag) ++ '"' :: (g ++ '"' :: rest))
      = searchKeyQuoted lkeyQ rest := by
  rw [lkeyQ_eq]
  rw [searchKeyQuoted_through lTag (' ' :: gTag) _ (by decide) (by decide)
    (by decide) (by decide)]
  rw [searchKeyQuoted_through lTag g rest (by decide) (by decide) hg hge]

/-- Group search passes over the serialized logo attribute (and finds
nothing after it). -/
theorem searchGroup_past_logo (l : Str) (hl : '"' ∉ l)
    (hle : strEndsWith l gTag = false) :
    searchKeyQuoted gkeyQ ((' ' :: lTag) ++ '"' :: (l ++ '"' :: [])) = none := by
  rw [gkeyQ_eq]
  rw [searchKeyQuoted_through gTag (' ' :: lTag) _ (by decide) (by decide)
    (by decide) (by decide)]
  rw [searchKeyQuoted_through gTag l [] (by decide) (by decide) hl hle]
  rfl

theorem attrStrSp_none (e : M3UEntry) (hg : e.group.isEmpty = true)
    (hl : e.logo.isEmpty = true) : attrStrSp e = [] := by
  simp [attrStrSp, attrStr, hg, hl, pyJoin]

theorem attrStrSp_group (e : M3UEntry) (hg : e.group.isEmpty = false)
    (hl : e.logo.isEmpty = true) : attrStrSp e = ' ' :: gAttr e.group := by
  have h1 : attrStr e = gAttr e.group := by
    simp [attrStr, hg, hl, pyJoin]
  have h2 : (gAttr e.group).isEmpty = false := by
    simp [gAttr, gkeyQ]
  rw [attrStrSp, h1, h2]
  simp

theorem attrStrSp_logo (e : M3UEntry) (hg : e.group.isEmpty = true)
    (hl : e.logo.isEmpty = false) : attrStrSp e = ' ' :: lAttr e.logo := by
  have h1 : attrStr e = lAttr e.logo := by
    simp [attrStr, hg, hl, pyJoin]
  have h2 : (lAttr e.logo).isEmpty = false := by
    simp [lAttr, lkeyQ]
  rw [attrStrSp, h1, h2]
  simp

theorem attrStrSp_both (e : M3UEntry) (hg : e.group.isEmpty = false)
    (hl : e.logo.isEmpty = false) :
    attrStrSp e = ' ' :: (gAttr e.group ++ (' ' :: lAttr e.logo)) := by
  have h1 : attrStr e = gAttr e.group ++ (' ' :: lAttr e.logo) := by
    simp [attrStr, hg, hl, pyJoin]
  have h2 : (gAttr e.group ++ (' ' :: lAttr e.logo)).isEmpty = false := by
    simp [gAttr, gkeyQ]
  rw [attrStrSp, h1, h2]
  simp

theorem metaLine_eq (e : M3UEntry) :
    metaLine e = hEXTINF ++ (e.duration ++ (attrStrSp e ++ ',' :: e.name)) := by
  simp [metaLine, List.append_assoc]

/-- Parsing the rebuilt `#EXTINF` line of a wellformed entry recovers its
name, duration, group and logo. -/
theorem parseExtinf_meta (e : M3UEntry) (h : wfEntry e) :
    parseExtinf (metaLine e) =
      { name := e.name, url := [], group := e.group, logo := e.logo
        duration := e.duration, user_agent := [], raw_extinf := [] } := by
  obtain ⟨⟨hnS, hnC, hnN, hnR⟩, ⟨hgQ, hgN, hgE, hgR⟩, ⟨hlQ, hlN, hlE, hlR⟩,
    ⟨hdne, hdc⟩, ⟨hube, huS, huH, huN, huR⟩, ⟨huaS, huaN, huaR⟩⟩ := h
  have hname : pyStrip e.name = e.name := pyStrip_fix _ hnS
  unfold parseExtinf
  dsimp only
  rw [metaLine_eq, show (8 : ℕ) = hEXTINF.length from rfl, List.drop_left]
  by_cases hg : e.group.isEmpty = true <;> by_cases hl : e.logo.isEmpty = true
  · -- no attributes
    have hge : e.group = [] := by simpa [List.isEmpty_iff] using hg
    have hle : e.logo = [] := by simpa [List.isEmpty_iff] using hl
    rw [attrStrSp_none e hg hl, List.nil_append]
    rw [takeWhile_append_stop isDurChar e.duration ',' e.name hdc (by decide)]
    rw [if_neg (by simpa [List.isEmpty_iff] using hdne), List.drop_left]
    rw [show (',' :: e.name : Str) = [] ++ ',' :: e.name from rfl,
      splitAtLastComma_append [] e.name hnC]
    dsimp only
    rw [show searchKeyQuoted gkeyQ ([] : Str) = none from rfl,
      show searchKeyQuoted lkeyQ ([] : Str) = none from rfl]
    dsimp only
    rw [hname, hge, hle]
  · -- logo only
    have hge : e.group = [] := by simpa [List.isEmpty_iff] using hg
    replace hl := Bool.eq_false_iff.mpr hl
    rw [attrStrSp_logo e hg hl]
    simp only [List.cons_append]
    rw [takeWhile_append_stop isDurChar e.duration ' '
      (lAttr e.logo ++ ',' :: e.name) hdc (by decide)]
    rw [if_neg (by simpa [List.isEmpty_iff] using hdne), List.drop_left]
    have hsplit : splitAtLastComma (' ' :: (lAttr e.logo ++ ',' :: e.name))
        = some (' ' :: lAttr e.logo, e.name) := by
      rw [show (' ' :: (lAttr e.logo ++ ',' :: e.name) : Str)
          = (' ' :: lAttr e.logo) ++ ',' :: e.name from by simp]
      exact splitAtLastComma_append (' ' :: lAttr e.logo) e.name hnC
    rw [hsplit]
    dsimp only
    have hGs : searchKeyQuoted gkeyQ (' ' :: lAttr e.logo) = none := by
      have hsh : ' ' :: lAttr e.logo = (' ' :: lTag) ++ '"' :: (e.logo ++ '"' :: []) := by
        simp [lAttr, lkeyQ_eq, List.append_assoc]
      rw [hsh]
      exact searchGroup_past_logo e.logo hlQ hlE
    have hLs : searchKeyQuoted lkeyQ (' ' :: lAttr e.logo) = some e.logo := by
      have hsh : ' ' :: lAttr e.logo = ' ' :: (lkeyQ ++ (e.logo ++ '"' :: [])) := by
        simp [lAttr, List.append_assoc]
      rw [hsh]
      exact searchLogo_in e.logo [] hlQ
    rw [hGs, hLs]
    dsimp only
    rw [hname, hge]
  · -- group only
    have hle : e.logo = [] := by simpa [List.isEmpty_iff] using hl
    replace hg := Bool.eq_false_iff.mpr hg
    rw [attrStrSp_group e hg hl]
    simp only [List.cons_append]
    rw [takeWhile_append_stop isDurChar e.duration ' '
      (gAttr e.group ++ ',' :: e.name) hdc (by decide)]
    rw [if_neg (by simpa [List.isEmpty_iff] using hdne), List.drop_left]
    have hsplit : splitAtLastComma (' ' :: (gAttr e.group ++ ',' :: e.name))
        = some (' ' :: gAttr e.group, e.name) := by
      rw [show (' ' :: (gAttr e.group ++ ',' :: e.name) : Str)
          = (' ' :: gAttr e.group) ++ ',' :: e.name from by simp]
      exact splitAtLastComma_append (' ' :: gAttr e.group) e.name hnC
    rw [hsplit]
    dsimp only
    have hGs : searchKeyQuoted gkeyQ (' ' :: gAttr e.group) = some e.group := by
      have hsh : ' ' :: gAttr e.group = ' ' :: (gkeyQ ++ (e.group ++ '"' :: [])) := by
        simp [gAttr, List.append_assoc]
      rw [hsh]
      exact searchGroup_in e.group [] hgQ
    have hLs : searchKeyQuoted lkeyQ (' ' :: gAttr e.group) = none := by
      have hsh : ' ' :: gAttr e.group = (' ' :: gTag) ++ '"' :: (e.group ++ '"' :: []) := by
        simp [gAttr, gkeyQ_eq, List.append_assoc]
      rw [hsh, searchLogo_past_group e.group [] hgQ hgE]
      rfl
    rw [hGs, hLs]
    dsimp only
    rw [hname, hle]
  · -- both attributes
    replace hg := Bool.eq_false_iff.mpr hg
    replace hl := Bool.eq_false_iff.mpr hl
    rw [attrStrSp_both e hg hl]
    simp only [List.cons_append]
    rw [takeWhile_append_stop isDurChar e.duration ' '
      ((gAttr e.group ++ (' ' :: lAttr e.logo)) ++ ',' :: e.name) hdc (by decide)]
    rw [if_neg (by simpa [List.isEmpty_iff] using hdne), List.drop_left]
    have hsplit : splitAtLastComma
        (' ' :: ((gAttr e.group ++ (' ' :: lAttr e.logo)) ++ ',' :: e.name))
        = some (' ' :: (gAttr e.group ++ (' ' :: lAttr e.logo)), e.name) := by
      rw [show (' ' :: ((gAttr e.group ++ (' ' :: lAttr e.logo)) ++ ',' :: e.name) : Str)
          = (' ' :: (gAttr e.group ++ (' ' :: lAttr e.logo))) ++ ',' :: e.name from by simp]
      exact splitAtLastComma_append (' ' :: (gAttr e.group ++ (' ' :: lAttr e.logo)))
        e.name hnC
    rw [hsplit]
    dsimp only
    have hGs : searchKeyQuoted gkeyQ
        (' ' :: (gAttr e.group ++ (' ' :: lAttr e.logo))) = some e.group := by
      have hsh : ' ' :: (gAttr e.group ++ (' ' :: lAttr e.logo))
          = ' ' :: (gkeyQ ++ (e.group ++ '"' :: (' ' :: lAttr e.logo))) := by
        simp [gAttr, List.append_assoc]
      rw [hsh]
      exact searchGroup_in e.group (' ' :: lAttr e.logo) hgQ
    have hLs : searchKeyQuoted lkeyQ
        (' ' :: (gAttr e.group ++ (' ' :: lAttr e.logo))) = some e.logo := by
      have hsh : ' ' :: (gAttr e.group ++ (' ' :: lAttr e.logo))
          = (' ' :: gTag) ++ '"' :: (e.group ++ '"' :: (' ' :: lAttr e.logo)) := by
        simp [gAttr, gkeyQ_eq, List.append_assoc]
      rw [hsh, searchLogo_past_group e.group (' ' :: lAttr e.logo) hgQ hgE]
      have hsh2 : ' ' :: lAttr e.logo = ' ' :: (lkeyQ ++ (e.logo ++ '"' :: [])) := by
        simp [lAttr, List.append_assoc]
      rw [hsh2]
      exact searchLogo_in e.logo [] hlQ
    rw [hGs, hLs]
    dsimp only
    rw [hname]

theorem noEdgeSpace_of (s : Str) (a b : Char)
    (hh : s.head? = some a) (hl : s.getLast? = some b)
    (ha : isPySpace a = false) (hb : isPySpace b = false) : noEdgeSpace s = true := by
  rw [noEdgeSpace, hh, hl]
  dsimp only
  simp [ha, hb]

/-- The rebuilt `#EXTINF` line is a `strip()` fixed point: it starts with
`#` and ends with the name's last character (or the comma). -/
theorem pyStrip_metaLine (e : M3UEntry) (hn : noEdgeSpace e.name = true) :
    pyStrip (metaLine e) = metaLine e := by
  apply pyStrip_fix
  rcases List.eq_nil_or_concat e.name with hni | ⟨L, c, hc⟩
  · apply noEdgeSpace_of _ '#' ','
    · simp [metaLine, hEXTINF]
    · rw [metaLine, hni]
      simp [List.getLast?_concat]
    · decide
    · decide
  · rw [List.concat_eq_append] at hc
    have hcs : isPySpace c = false := by
      rw [hc] at hn
      exact noEdgeSpace_last hn
    apply noEdgeSpace_of _ '#' c
    · simp [metaLine, hEXTINF]
    · rw [metaLine, hc]
      rw [show hEXTINF ++ e.duration ++ attrStrSp e ++ [','] ++ (L ++ [c])
          = (hEXTINF ++ e.duration ++ attrStrSp e ++ [','] ++ L) ++ [c] from by
        simp [List.append_assoc]]
      rw [List.getLast?_concat]
    · decide
    · exact hcs

/-- The `#EXTVLCOPT` line is a `strip()` fixed point when the user agent
is nonempty with no edge whitespace. -/
theorem pyStrip_vlcLine (e : M3UEntry) (hua : noEdgeSpace e.user_agent = true)
    (hne : e.user_agent ≠ []) : pyStrip (vlcLine e) = vlcLine e := by
  apply pyStrip_fix
  rcases List.eq_nil_or_concat e.user_agent with hni | ⟨L, c, hc⟩
  · exact absurd hni hne
  · rw [List.concat_eq_append] at hc
    have hcs : isPySpace c = false := by
      rw [hc] at hua
      exact noEdgeSpace_last hua
    apply noEdgeSpace_of _ '#' c
    · simp [vlcLine, hVLCOPT]
    · rw [vlcLine, hc]
      rw [show hVLCOPT ++ uaKey ++ (L ++ [c]) = (hVLCOPT ++ uaKey ++ L) ++ [c] from by
        simp [List.append_assoc]]
      rw [List.getLast?_concat]
    · decide
    · exact hcs

/-- Parsing the rebuilt metadata line installs the recovered entry as the
in-progress entry. -/
theorem parseLine_meta_step (ents : List M3UEntry) (cur : Option M3UEntry)
    (e : M3UEntry) (h : wfEntry e) :
    parseLine { entries := ents, current := cur } (metaLine e) = { entries := ents, current := some { name := e.name, url := [], group := e.group, logo := e.logo, duration := e.duration, user_agent := [], raw_extinf := [] } } := by
  have hstrip : pyStrip (metaLine e) = metaLine e := pyStrip_metaLine e h.1.1
  rw [parseLine_extinf { entries := ents, current := cur } (metaLine e) ?h0 ?h1 ?h2]
  · rw [hstrip, parseExtinf_meta e h]
  case h0 => rw [hstrip]; rfl
  case h1 => rw [hstrip]; rfl
  case h2 =>
    rw [hstrip, metaLine_eq]
    exact strStartsWith_append_self hEXTINF _

/-- Parsing the rebuilt `#EXTVLCOPT` line sets the user agent on the
in-progress entry. -/
theorem parseLine_vlc_step (ents : List M3UEntry) (ce : M3UEntry) (e : M3UEntry)
    (h : wfEntry e) (hne : e.user_agent ≠ []) :
    parseLine { entries := ents, current := some ce } (vlcLine e)
      = { entries := ents, current := some { ce with user_agent := e.user_agent } } := by
  have hstrip : pyStrip (vlcLine e) = vlcLine e := pyStrip_vlcLine e h.2.2.2.2.2.1 hne
  have hdrop : (vlcLine e).drop 11 = uaKey ++ e.user_agent := by
    rw [vlcLine, List.append_assoc, show (11 : ℕ) = hVLCOPT.length from rfl,
      List.drop_left]
  have hstrip2 : pyStrip (uaKey ++ e.user_agent) = uaKey ++ e.user_agent := by
    apply pyStrip_fix
    rcases List.eq_nil_or_concat e.user_agent with hni | ⟨L, c, hc⟩
    · exact absurd hni hne
    · rw [List.concat_eq_append] at hc
      have hcs : isPySpace c = false := by
        have hua := h.2.2.2.2.2.1
        rw [hc] at hua
        exact noEdgeSpace_last hua
      apply noEdgeSpace_of _ 'h' c
      · simp [uaKey]
      · rw [hc, show uaKey ++ (L ++ [c]) = (uaKey ++ L) ++ [c] from by
          simp [List.append_assoc]]
        rw [List.getLast?_concat]
      · decide
      · exact hcs
  have hafter : afterFirstEq (pyStrip ((pyStrip (vlcLine e)).drop 11))
      = e.user_agent := by
    rw [hstrip, hdrop, hstrip2, afterFirstEq]
    rw [show (uaKey : Str) = ['h', 't', 't', 'p', '-', 'u', 's', 'e', 'r', '-',
      'a', 'g', 'e', 'n', 't'] ++ ['='] from rfl]
    rw [List.append_assoc, List.singleton_append]
    rw [dropWhile_append_stop _ _ '=' e.user_agent (by decide) (by decide)]
    rw [List.drop_succ_cons, List.drop_zero]
  rw [parseLine_vlcopt_set { entries := ents, current := some ce } (vlcLine e) ce
    ?h0 ?h1 ?h2 ?h3 rfl ?h4]
  · rw [hafter]
  case h0 => rw [hstrip]; rfl
  case h1 => rw [hstrip]; rfl
  case h2 => rw [hstrip]; rfl
  case h3 => rw [hstrip]; rfl
  case h4 =>
    rw [hstrip, hdrop, hstrip2, List.map_append,
      show uaKey.map Char.toLower = uaKey from by decide]
    exact strStartsWith_append_self uaKey _

/-- Parsing the URL line emits the in-progress entry with the URL set. -/
theorem parseLine_url_step (ents : List M3UEntry) (ce : M3UEntry) (e : M3UEntry)
    (h : wfEntry e) :
    parseLine { entries := ents, current := some ce } e.url
      = { entries := ents ++ [{ ce with url := e.url }], current := none } := by
  obtain ⟨hube, huS, huH, huN, huR⟩ := h.2.2.2.2.1
  have hstrip : pyStrip e.url = e.url := pyStrip_fix _ huS
  have h0 : (pyStrip e.url).isEmpty = false := by
    rw [hstrip]
    cases hu : e.url with
    | nil => exact absurd hu hube
    | cons a t => rfl
  have h5 : strStartsWith (pyStrip e.url) ['#'] = false := by
    rw [hstrip]; exact huH
  have h1 := not_marker_of_not_hash
    (show hEXTM3U = '#' :: ['E', 'X', 'T', 'M', '3', 'U'] from rfl) h5
  have h2 := not_marker_of_not_hash
    (show hEXTINF = '#' :: ['E', 'X', 'T', 'I', 'N', 'F', ':'] from rfl) h5
  have h3 := not_marker_of_not_hash
    (show hVLCOPT = '#' :: ['E', 'X', 'T', 'V', 'L', 'C', 'O', 'P', 'T', ':'] from rfl) h5
  rw [parseLine_url_some { entries := ents, current := some ce } e.url ce
    h0 h1 h2 h3 h5 rfl, hstrip]

/-- Folding the parser over one serialized entry's lines appends exactly
the recovered entry and leaves no in-progress entry. -/
theorem parse_entry_lines (e : M3UEntry) (h : wfEntry e) (acc : List M3UEntry)
    (rest : List Str) :
    List.foldl parseLine { entries := acc, current := none } (to_m3u_lines e ++ rest)
      = List.foldl parseLine { entries := acc ++ [parsedOf e], current := none } rest := by
  rw [to_m3u_lines]
  by_cases hua : e.user_agent.isEmpty = true
  · have huae : e.user_agent = [] := by simpa [List.isEmpty_iff] using hua
    have hpe : parsedOf e = { name := e.name, url := e.url, group := e.group, logo := e.logo, duration := e.duration, user_agent := [], raw_extinf := [] } := by
      rw [parsedOf, huae]
    rw [if_pos hua]
    simp only [List.nil_append, List.cons_append, List.singleton_append,
      List.foldl_cons]
    rw [parseLine_meta_step acc none e h, parseLine_url_step acc _ e h, hpe]
  · have hpe : parsedOf e = { name := e.name, url := e.url, group := e.group, logo := e.logo, duration := e.duration, user_agent := e.user_agent, raw_extinf := [] } := rfl
    have huane : e.user_agent ≠ [] := by
      intro hcon
      rw [hcon] at hua
      simp at hua
    rw [if_neg hua]
    simp only [List.cons_append, List.singleton_append, List.foldl_cons]
    rw [parseLine_meta_step acc none e h]
    rw [parseLine_vlc_step acc _ e h huane]
    dsimp only
    simp only [List.nil_append, List.singleton_append, List.foldl_cons]
    rw [parseLine_url_step acc _ e h]
    rw [hpe]

/-- Folding the parser over the serialized lines of a wellformed playlist
appends the recovered entries in order. -/
theorem parse_save_fold : ∀ (es : List M3UEntry), (∀ e ∈ es, wfEntry e) →
    ∀ (acc : List M3UEntry),
    List.foldl parseLine { entries := acc, current := none }
        ((es.map to_m3u_lines).flatten)
      = { entries := acc ++ es.map parsedOf, current := none }
  | [], _, acc => by simp
  | e :: es, h, acc => by
      rw [List.map_cons, List.flatten_cons]
      rw [parse_entry_lines e (h e (List.mem_cons_self e es)) acc _]
      rw [parse_save_fold es (fun x hx => h x (List.mem_cons_of_mem e hx)) _]
      simp

/-! ### The save-then-read text pipeline -/

theorem rstrip_append_space (s : Str) (c : Char) (hc : isPySpace c = true) :
    rstrip (s ++ [c]) = rstrip s := by
  rw [rstrip, rstrip]
  simp [List.reverse_append, List.dropWhile_cons, hc]

theorem pyStrip_append_space (l : Str) (c : Char) (hc : isPySpace c = true) :
    pyStrip (l ++ [c]) = pyStrip l := by
  rw [pyStrip, pyStrip, lstrip, lstrip, List.dropWhile_append]
  by_cases h : (List.dropWhile isPySpace l).isEmpty = true
  · rw [if_pos h]
    have h2 : List.dropWhile isPySpace [c] = [] := by
      simp [List.dropWhile_cons, hc]
    have h3 : List.dropWhile isPySpace l = [] := by
      simpa [List.isEmpty_iff] using h
    rw [h2, h3]
  · rw [if_neg h]
    exact rstrip_append_space _ c hc

/-- The parser strips each line first, so a trailing `readlines`
terminator does not change a parse step. -/
theorem parseLine_append_nl (st : ParseState) (l : Str) :
    parseLine st (l ++ ['\n']) = parseLine st l := by
  unfold parseLine
  rw [pyStrip_append_space l '\n' (by decide)]

theorem parse_fold_nl : ∀ (lines : List Str) (st : ParseState),
    List.foldl parseLine st (lines.map (fun l => l ++ ['\n']))
      = List.foldl parseLine st lines
  | [], _ => rfl
  | l :: ls, st => by
      rw [List.map_cons, List.foldl_cons, List.foldl_cons, parseLine_append_nl,
        parse_fold_nl ls _]

/-- Universal-newline translation is the identity on text without `\r`. -/
theorem univNewlines_eq_self : ∀ (s : Str), '\r' ∉ s → univNewlines s = s
  | [], _ => rfl
  | [c], h => by
      have hc : ¬ c = '\r' := fun hcc => h (by rw [hcc]; exact List.mem_singleton.mpr rfl)
      rw [show univNewlines [c] = if c = '\r' then ['\n'] else [c] from rfl, if_neg hc]
  | c :: d :: t, h => by
      have hc : ¬ c = '\r' := fun hcc => h (by rw [hcc]; exact List.mem_cons_self _ _)
      have h2 : '\r' ∉ d :: t := fun hm => h (List.mem_cons_of_mem _ hm)
      rw [show univNewlines (c :: d :: t)
          = if c = '\r' then
              (if d = '\n' then '\n' :: univNewlines t
                else '\n' :: univNewlines (d :: t))
            else c :: univNewlines (d :: t) from rfl, if_neg hc,
        univNewlines_eq_self (d :: t) h2]

theorem readlinesAux_line : ∀ (l acc rest : Str), '\n' ∉ l →
    readlinesAux acc (l ++ '\n' :: rest)
      = (acc.reverse ++ (l ++ ['\n'])) :: readlinesAux [] rest
  | [], acc, rest, _ => by
      rw [List.nil_append,
        show readlinesAux acc ('\n' :: rest)
          = if ('\n' : Char) = '\n' then
              (acc.reverse ++ ['\n']) :: readlinesAux [] rest
            else readlinesAux ('\n' :: acc) rest from rfl,
        if_pos rfl]
      simp
  | c :: l, acc, rest, h => by
      have hc : ¬ c = '\n' := fun hcc => h (by rw [hcc]; exact List.mem_cons_self _ _)
      rw [List.cons_append,
        show readlinesAux acc (c :: (l ++ '\n' :: rest))
          = if c = '\n' then
              (acc.reverse ++ ['\n']) :: readlinesAux [] (l ++ '\n' :: rest)
            else readlinesAux (c :: acc) (l ++ '\n' :: rest) from rfl,
        if_neg hc,
        readlinesAux_line l (c :: acc) rest (fun hm => h (List.mem_cons_of_mem _ hm))]
      simp

/-- `readlines` of `\n`-terminated `\n`-free lines recovers the lines,
each keeping its terminator. -/
theorem readlines_terminated : ∀ (lines : List Str), (∀ l ∈ lines, '\n' ∉ l) →
    readlines ((lines.map (fun l => l ++ ['\n'])).flatten)
      = lines.map (fun l => l ++ ['\n'])
  | [], _ => rfl
  | l :: ls, h => by
      rw [List.map_cons, List.flatten_cons, readlines,
        show (l ++ ['\n']) ++ ((ls.map fun x => x ++ ['\n']).flatten)
          = l ++ '\n' :: ((ls.map fun x => x ++ ['\n']).flatten) from by simp,
        readlinesAux_line l [] _ (h l (List.mem_cons_self _ _)),
        show readlinesAux [] ((ls.map fun x => x ++ ['\n']).flatten)
          = readlines ((ls.map fun x => x ++ ['\n']).flatten) from rfl,
        readlines_terminated ls (fun x hx => h x (List.mem_cons_of_mem _ hx))]
      simp

theorem pyJoin_nl_flatten : ∀ (ls : List Str), ls ≠ [] →
    pyJoin ['\n'] ls ++ ['\n'] = (ls.map (fun l => l ++ ['\n'])).flatten
  | [], h => absurd rfl h
  | [x], _ => by simp [pyJoin]
  | x :: y :: ls, _ => by
      have ih := pyJoin_nl_flatten (y :: ls) (by simp)
      rw [List.map_cons, List.flatten_cons, ← ih,
        show pyJoin ['\n'] (x :: y :: ls)
          = x ++ ['\n'] ++ pyJoin ['\n'] (y :: ls) from rfl]
      simp [List.append_assoc]

/-- The entry texts `save_file` writes are the serialized lines, each
`\n`-terminated. -/
theorem flatten_string_lines : ∀ (es : List M3UEntry),
    (es.map (fun e => to_m3u_string e ++ ['\n'])).flatten
      = (((es.map to_m3u_lines).flatten).map (fun l => l ++ ['\n'])).flatten
  | [] => rfl
  | e :: es => by
      simp only [List.map_cons, List.flatten_cons, List.map_append,
        List.flatten_append]
      rw [flatten_string_lines es]
      congr 1
      rw [to_m3u_string]
      exact pyJoin_nl_flatten (to_m3u_lines e) (by simp [to_m3u_lines])

theorem fileText_eq (es : List M3UEntry) :
    fileText es = ((saveLines es).map (fun l => l ++ ['\n'])).flatten := by
  rw [fileText, saveLines]
  simp only [List.map_cons, List.flatten_cons]
  rw [flatten_string_lines es]
  simp

/-- Every character of `attr_str` is a blank, a quote, attribute key text,
or a character of the group or logo value. -/
theorem attrStrSp_subset (e : M3UEntry) (c : Char) (hc : c ∈ attrStrSp e) :
    c = ' ' ∨ c = '"' ∨ c ∈ gTag ∨ c ∈ lTag ∨ c ∈ e.group ∨ c ∈ e.logo := by
  by_cases hg : e.group.isEmpty = true <;> by_cases hl : e.logo.isEmpty = true
  · rw [attrStrSp_none e hg hl] at hc
    exact absurd hc (List.not_mem_nil c)
  · rw [attrStrSp_logo e hg (Bool.eq_false_iff.mpr hl)] at hc
    simp only [lAttr, lkeyQ_eq, List.mem_cons, List.mem_append,
      List.mem_singleton] at hc
    tauto
  · rw [attrStrSp_group e (Bool.eq_false_iff.mpr hg) hl] at hc
    simp only [gAttr, gkeyQ_eq, List.mem_cons, List.mem_append,
      List.mem_singleton] at hc
    tauto
  · rw [attrStrSp_both e (Bool.eq_false_iff.mpr hg) (Bool.eq_false_iff.mpr hl)] at hc
    simp only [gAttr, lAttr, gkeyQ_eq, lkeyQ_eq, List.mem_cons, List.mem_append,
      List.mem_singleton] at hc
    tauto

/-- The rebuilt `#EXTINF` line of a wellformed entry holds no `\n`, `\r`. -/
theorem metaLine_no_break (e : M3UEntry) (h : wfEntry e) (c : Char)
    (hcn : c = '\n' ∨ c = '\r') : c ∉ metaLine e := by
  obtain ⟨⟨hnS, hnC, hnN, hnR⟩, ⟨hgQ, hgN, hgE, hgR⟩, ⟨hlQ, hlN, hlE, hlR⟩,
    ⟨hdne, hdc⟩, _, _⟩ := h
  have hname : c ∉ e.name := by
    rcases hcn with rfl | rfl
    exacts [hnN, hnR]
  have hdur : c ∉ e.duration := by
    intro hd
    have hh := hdc c hd
    rcases hcn with rfl | rfl <;> exact absurd hh (by decide)
  have hattr : c ∉ attrStrSp e := by
    intro ha
    rcases attrStrSp_subset e c ha with h1 | h1 | h1 | h1 | h1 | h1
    · rcases hcn with rfl | rfl <;> exact absurd h1 (by decide)
    · rcases hcn with rfl | rfl <;> exact absurd h1 (by decide)
    · rcases hcn with rfl | rfl <;> exact absurd h1 (by decide)
    · rcases hcn with rfl | rfl <;> exact absurd h1 (by decide)
    · rcases hcn with rfl | rfl
      exacts [hgN h1, hgR h1]
    · rcases hcn with rfl | rfl
      exacts [hlN h1, hlR h1]
  have hext : c ∉ hEXTINF := by
    rcases hcn with rfl | rfl <;> decide
  have hcom : c ≠ ',' := by
    rcases hcn with rfl | rfl <;> decide
  intro hmem
  rw [metaLine] at hmem
  simp only [List.mem_append, List.mem_cons, List.mem_singleton,
    List.not_mem_nil, or_false] at hmem
  rcases hmem with (((h1 | h1) | h1) | h1) | h1
  · exact hext h1
  · exact hdur h1
  · exact hattr h1
  · exact hcom h1
  · exact hname h1

/-- The rebuilt `#EXTVLCOPT` line of a wellformed entry holds no `\n`, `\r`. -/
theorem vlcLine_no_break (e : M3UEntry) (h : wfEntry e) (c : Char)
    (hcn : c = '\n' ∨ c = '\r') : c ∉ vlcLine e := by
  obtain ⟨huaS, huaN, huaR⟩ := h.2.2.2.2.2
  intro hmem
  rw [vlcLine] at hmem
  simp only [List.mem_append] at hmem
  rcases hmem with (h1 | h1) | h1
  · rcases hcn with rfl | rfl <;> exact absurd h1 (by decide)
  · rcases hcn with rfl | rfl <;> exact absurd h1 (by decide)
  · rcases hcn with rfl | rfl
    exacts [huaN h1, huaR h1]

/-- No line `save_file` writes for a wellformed playlist holds a `\n` or a
`\r`, so the written text splits back into exactly these lines. -/
theorem saveLines_no_break (es : List M3UEntry) (h : ∀ e ∈ es, wfEntry e) :
    ∀ l ∈ saveLines es, '\n' ∉ l ∧ '\r' ∉ l := by
  intro l hl
  rw [saveLines] at hl
  rcases List.mem_cons.mp hl with rfl | hl2
  · constructor <;> decide
  · rw [List.mem_flatten] at hl2
    obtain ⟨ls, hls, hlin⟩ := hl2
    rw [List.mem_map] at hls
    obtain ⟨e, he, rfl⟩ := hls
    have hwf := h e he
    rw [to_m3u_lines, List.cons_append] at hlin
    rcases List.mem_cons.mp hlin with rfl | hlin2
    · exact ⟨metaLine_no_break e hwf '\n' (Or.inl rfl),
        metaLine_no_break e hwf '\r' (Or.inr rfl)⟩
    · rw [List.mem_append] at hlin2
      rcases hlin2 with hv | hu
      · by_cases hua : e.user_agent.isEmpty = true
        · rw [if_pos hua] at hv
          exact absurd hv (List.not_mem_nil l)
        · rw [if_neg hua] at hv
          obtain rfl := List.mem_singleton.mp hv
          exact ⟨vlcLine_no_break e hwf '\n' (Or.inl rfl),
            vlcLine_no_break e hwf '\r' (Or.inr rfl)⟩
      · obtain rfl := List.mem_singleton.mp hu
        obtain ⟨_, _, _, _, ⟨hube, huS, huH, huN, huR⟩, _⟩ := hwf
        exact ⟨huN, huR⟩

theorem fileText_no_cr (es : List M3UEntry) (h : ∀ e ∈ es, wfEntry e) :
    '\r' ∉ ((saveLines es).map (fun l => l ++ ['\n'])).flatten := by
  intro hmem
  rw [List.mem_flatten] at hmem
  obtain ⟨x, hx, hcin⟩ := hmem
  rw [List.mem_map] at hx
  obtain ⟨l, hl, rfl⟩ := hx
  rw [List.mem_append] at hcin
  rcases hcin with hc | hc
  · exact (saveLines_no_break es h l hl).2 hc
  · simp at hc

/-- The whole pipeline: writing a wellformed playlist with `save_file` and
reading the text back (universal newlines, `readlines`, `parse_lines`)
parses exactly the lines that were serialized. -/
theorem parse_file_fileText (es : List M3UEntry) (h : ∀ e ∈ es, wfEntry e) :
    parse_file (fileText es) = parse_lines (saveLines es) := by
  rw [parse_file, fileText_eq,
    univNewlines_eq_self _ (fileText_no_cr es h),
    readlines_terminated (saveLines es) (fun l hl => (saveLines_no_break es h l hl).1),
    parse_lines, parse_lines, parse_fold_nl]

/-- C1 (amended): writing the playlist with `save_file` and parsing the
written text back (text-mode universal newlines, `readlines`,
`parse_lines`) is the identity on
`{name, url, group, logo, duration, user_agent}`, in order, for playlists
of wellformed entries (`wfEntry`); the spec's Entry invariants alone are
not enough, see the counterexample. -/
theorem c1_roundtrip_amended (es : List M3UEntry) (h : ∀ e ∈ es, wfEntry e) :
    (parse_file (fileText es)).length = es.length
    ∧ ∀ i, i < es.length →
        sixFieldsEq ((parse_file (fileText es)).getD i default) (es.getD i default) := by
  have hmain : parse_file (fileText es) = es.map parsedOf := by
    rw [parse_file_fileText es h]
    rw [parse_lines, saveLines, List.foldl_cons]
    rw [show parseLine { entries := [], current := none } hEXTM3U
        = { entries := [], current := none } from
      parseLine_header _ hEXTM3U (by decide) (by decide)]
    rw [parse_save_fold es h []]
    simp
  rw [hmain]
  constructor
  · simp
  · intro i hi
    have hlen : i < (es.map parsedOf).length := by simpa using hi
    rw [List.getD_eq_getElem _ _ hlen, List.getD_eq_getElem _ _ hi, List.getElem_map]
    exact ⟨rfl, rfl, rfl, rfl, rfl, rfl⟩

/-- C1 witness: the round trip at the concrete playlist. -/
theorem c1_roundtrip_amended_witness :
    (parse_file (fileText c1wPlaylist)).length = c1wPlaylist.length
    ∧ ∀ i, i < c1wPlaylist.length →
        sixFieldsEq ((parse_file (fileText c1wPlaylist)).getD i default)
          (c1wPlaylist.getD i default) :=
  c1_roundtrip_amended c1wPlaylist (by decide)

/-- C1 counterexample: the Entry invariants do not imply the round trip —
saving a name with a comma and parsing the written file back yields only
the text after the last comma (`"B"`, not `"A,B"`). -/
theorem c1_counterexample :
    entryInvariants c1CexEntry
    ∧ ((parse_file (fileText [c1CexEntry])).getD 0 default).name
        ≠ c1CexEntry.name := by
  constructor
  · exact Or.inl rfl
  · decide
